import Mathlib

/-!
# mucmd: an embeddable command interpreter

Shallow embedding of `src/mucmd.h` (and of the command table of
`src/examples/main.c`), followed by the properties established about it.

Conventions of the embedding.

* A pointer into allocator memory is a block identity, a natural number;
  `0` is the null pointer.  Every block handed out by the allocator gets an
  identity never used before, so a pointer to a released block can be told
  apart from a pointer to a live one.
* The allocator is the host's: a record of three operations over an opaque
  context state.  The operations decide whether a request is served and, for a
  reallocation, whether the block stays where it is; the bookkeeping of which
  blocks are live and what they hold is kept in `World.heap`.  The three
  function pointers are never null.
* A call of the host's release or reallocate on a pointer that is not a live
  block is recorded in the trace and changes no block: what the host does with
  such a pointer is the host's affair, and the properties about releases are
  stated on the trace.  A store of the interpreter itself outside a live block
  is undefined behaviour and ends the execution of the embedding.
* The line buffer is the list of characters stored from the pointer on; the
  end of the list counts as a string terminator.  A `char *` into the line is
  an offset into that list.  `getline` always leaves a buffer.
* Handlers are the host's: an invocation is recorded with what can be read
  through `argv` at that moment, and gives back a status; it changes nothing
  else.
* Object sizes are those of an LP64 platform.  `int` and `size_t` values are
  unbounded integers: reaching their limits takes a line of more than `2^31`
  tokens.
* Everything observable (allocator calls, stores into argument arrays, writes
  to the output streams, reads, handler invocations) is appended to
  `World.trace`.
-/

namespace Mucmd

/-! ## C strings and the libc string functions the interpreter calls -/

/-- The string terminator. -/
def NUL : Char := Char.ofNat 0

/-- The C string stored at the start of `s`: the characters before the first
terminator. -/
def c_str (s : List Char) : List Char := s.takeWhile (fun c => c != NUL)

/-- The C string a `char *` at offset `off` of `buf` points to. -/
def c_str_at (buf : List Char) (off : Nat) : List Char := c_str (buf.drop off)

/-- libc `strcmp` on the memory from two pointers on: the difference of the
first two characters that differ, `0` when both strings end together. -/
def strcmp : List Char → List Char → Int
  | [], [] => 0
  | [], b :: _ => -(b.toNat : Int)
  | a :: _, [] => (a.toNat : Int)
  | a :: s, b :: t =>
    if a = b then (if a = NUL then 0 else strcmp s t) else (a.toNat : Int) - (b.toNat : Int)

/-- libc `strspn`: length of the initial segment of the string made of
characters of `accept`. -/
def strspn (s accept : List Char) : Nat :=
  (s.takeWhile (fun c => c != NUL && accept.contains c)).length

/-- libc `strcspn`: length of the initial segment of the string made of
characters not in `reject`. -/
def strcspn (s reject : List Char) : Nat :=
  (s.takeWhile (fun c => c != NUL && !reject.contains c)).length

/-- libc `strtok` over the buffer `buf`, with its hidden position `save`.
`s` is the first argument (`none` for `NULL`: continue from `save`).  Returns
the token (`none` for `NULL`), the buffer with the delimiter that ended the
token overwritten by a terminator, and the new hidden position. -/
def strtok (buf : List Char) (save : Nat) (s : Option Nat) (delim : List Char) :
    Option Nat × List Char × Nat :=
  let s0 := s.getD save
  let b := s0 + strspn (buf.drop s0) delim
  if buf.getD b NUL = NUL then (none, buf, b)
  else
    let e := b + strcspn (buf.drop b) delim
    if buf.getD e NUL = NUL then (some b, buf, e)
    else (some b, buf.set e NUL, e + 1)

/-! ## Data model (`mucmd.h` lines 29-50 and 76-81) -/

/-- The prompt, `MUCMD_PROMPT`. -/
def MUCMD_PROMPT : List Char := ">>> ".toList

/-- The entry `struct mucmd_command`.  `handler` is a function pointer (`0` is
`NULL`), `desc` may be `NULL`. -/
structure mucmd_command where
  name : List Char
  handler : Nat
  desc : Option (List Char)
  deriving DecidableEq

/-- What a block of allocator memory holds. -/
inductive Content where
  | raw
  | table (es : List mucmd_command)
  | argv (cells : Nat → Option Nat)

/-- The pointer cells of a block read as an argument array: a cell that was
never written reads as `none`. -/
def Content.cells : Content → Nat → Option Nat
  | Content.argv cells => cells
  | _ => fun _ => none

/-- A live block: its size in bytes and what was written to it. -/
structure Block where
  size : Nat
  content : Content

/-- How the host's reallocate answers: `null` returns `NULL` and leaves the
block alone, `null_released` returns `NULL` after releasing the block (what
some C libraries do for size zero), `same` resizes in place, `moved` returns a
new block holding the old contents and releases the old one. -/
inductive realloc_reply where
  | null
  | null_released
  | same
  | moved
  deriving DecidableEq

/-- The capability set `struct mucmd_allocator` over a context state `κ` (the state
behind the `ctx` pointer, kept in `World.ctx`).  `alloc` answers `none` for
`NULL`, or the words found in the fresh, uninitialised block. -/
structure mucmd_allocator (κ : Type) where
  alloc : κ → Nat → Option (Nat → Int) × κ
  realloc : κ → Nat → Nat → realloc_reply × κ
  free : κ → Nat → κ

/-- The interpreter state `struct mucmd`. -/
structure mucmd (κ : Type) where
  allocator : mucmd_allocator κ
  cmds : Nat
  cmds_number : Nat

/-- The record `struct mucmd_parsed_command`, kept at block `self`.  `name` is an
offset into the line buffer. -/
structure mucmd_parsed_command (κ : Type) where
  self : Nat
  name : Nat
  argc : Int
  argv : Nat
  allocator : mucmd_allocator κ

/-- Observable actions. -/
inductive Event where
  | alloc (size : Nat) (ret : Nat)
  | realloc (ptr : Nat) (size : Nat) (ret : Nat)
  | free (ptr : Nat)
  | store (ptr : Nat) (idx : Nat) (tok : Nat)
  | stdout (s : List Char)
  | stderr (s : List Char)
  | getline (ret : Int)
  | free_line
  | call (handler : Nat) (argc : Int) (argv : Nat) (args : Option (List (List Char)))
  deriving DecidableEq

/-- Everything outside the interpreter's own variables: the allocator's
context state, the blocks it has handed out, the hidden position of `strtok`,
and the actions performed so far. -/
structure World (κ : Type) where
  ctx : κ
  next : Nat
  heap : Nat → Option Block
  save : Nat
  trace : List Event

/-- The world before anything happened. -/
def World.init {κ : Type} (ctx : κ) : World κ :=
  ⟨ctx, 0, fun _ => none, 0, []⟩

/-- Append an action to the trace. -/
def World.emit {κ : Type} (w : World κ) (e : Event) : World κ :=
  { w with trace := w.trace ++ [e] }

/-- The size of a pointer to `char`. -/
def sizeof_char_ptr : Nat := 8

/-- The size of the record `struct mucmd_parsed_command`. -/
def sizeof_parsed_command : Nat := 56

/-- The size of the entry `struct mucmd_command`. -/
def sizeof_command : Nat := 24

/-! ## The allocator macros (`mucmd.h` lines 68-74) -/

/-- The macro `MUCMD_ALLOC`: returns the pointer, the words found in the fresh
block, and the new world. -/
def MUCMD_ALLOC {κ : Type} (allocator : mucmd_allocator κ) (w : World κ) (size : Nat) :
    Nat × (Nat → Int) × World κ :=
  match allocator.alloc w.ctx size with
  | (none, c) =>
    (0, fun _ => 0, { w with ctx := c, trace := w.trace ++ [Event.alloc size 0] })
  | (some junk, c) =>
    (w.next + 1, junk,
      { w with
        ctx := c
        next := w.next + 1
        heap := Function.update w.heap (w.next + 1) (some ⟨size, Content.raw⟩)
        trace := w.trace ++ [Event.alloc size (w.next + 1)] })

/-- The macro `MUCMD_REALLOC`: returns the pointer the host's reallocate
returned, and the new world. -/
def MUCMD_REALLOC {κ : Type} (allocator : mucmd_allocator κ) (w : World κ) (ptr : Nat)
    (size : Nat) : Nat × World κ :=
  match allocator.realloc w.ctx ptr size with
  | (realloc_reply.null, c) =>
    (0, { w with ctx := c, trace := w.trace ++ [Event.realloc ptr size 0] })
  | (realloc_reply.null_released, c) =>
    (0, { w with
          ctx := c
          heap := Function.update w.heap ptr none
          trace := w.trace ++ [Event.realloc ptr size 0] })
  | (realloc_reply.same, c) =>
    (ptr, { w with
            ctx := c
            heap := Function.update w.heap ptr
              ((w.heap ptr).map (fun b => { b with size := size }))
            trace := w.trace ++ [Event.realloc ptr size ptr] })
  | (realloc_reply.moved, c) =>
    (w.next + 1,
      { w with
        ctx := c
        next := w.next + 1
        heap := Function.update (Function.update w.heap ptr none) (w.next + 1)
          ((w.heap ptr).map (fun b => { b with size := size }))
        trace := w.trace ++ [Event.realloc ptr size (w.next + 1)] })

/-- The macro `MUCMD_FREE`. -/
def MUCMD_FREE {κ : Type} (allocator : mucmd_allocator κ) (w : World κ) (ptr : Nat) :
    World κ :=
  { w with
    ctx := allocator.free w.ctx ptr
    heap := Function.update w.heap ptr none
    trace := w.trace ++ [Event.free ptr] }

/-- The assignment `argv[idx] = tok` through the pointer `ptr`.  The flag tells
whether the cell lies inside a live block; when it does not the store has no
defined effect. -/
def store_arg {κ : Type} (w : World κ) (ptr : Nat) (idx tok : Nat) : Bool × World κ :=
  match w.heap ptr with
  | some ⟨size, content⟩ =>
    if (idx + 1) * sizeof_char_ptr ≤ size then
      (true, { w with
               heap := Function.update w.heap ptr
                 (some ⟨size, Content.argv (Function.update content.cells idx (some tok))⟩)
               trace := w.trace ++ [Event.store ptr idx tok] })
    else (false, w.emit (Event.store ptr idx tok))
  | none => (false, w.emit (Event.store ptr idx tok))

/-- The strings `argv[0] .. argv[n-1]` read through `cells`. -/
def read_args (buf : List Char) (cells : Nat → Option Nat) : Nat → Option (List (List Char))
  | 0 => some []
  | n + 1 =>
    match read_args buf cells n, cells n with
    | some l, some off => some (l ++ [c_str_at buf off])
    | _, _ => none

/-- What a handler called with `(argc, argv)` finds in `argv[0 .. argc-1]`;
`none` when some of these cells is not inside a live block or was never
written. -/
def argv_strings {κ : Type} (w : World κ) (buf : List Char) (argv : Nat) (argc : Int) :
    Option (List (List Char)) :=
  if argc ≤ 0 then some []
  else
    match w.heap argv with
    | some ⟨size, content⟩ =>
      if argc.toNat * sizeof_char_ptr ≤ size then read_args buf content.cells argc.toNat
      else none
    | none => none

/-- The entry `cmds[i]` read through the table pointer `cmds`; `none` when it is
not inside a live table. -/
def read_command {κ : Type} (w : World κ) (cmds : Nat) (i : Nat) : Option mucmd_command :=
  match w.heap cmds with
  | some ⟨size, Content.table es⟩ =>
    if (i + 1) * sizeof_command ≤ size then es[i]? else none
  | _ => none

/-! ## The tokenizer (`mucmd.h` lines 83-133) -/

/-- The function `mucmd_parsed_command_destroy`; `none` is the `NULL` record. -/
def mucmd_parsed_command_destroy {κ : Type} (command : Option (mucmd_parsed_command κ))
    (w : World κ) : World κ :=
  match command with
  | none => w
  | some c =>
    let w := if c.argc > 0 then MUCMD_FREE c.allocator w c.argv else w
    MUCMD_FREE c.allocator w c.self

/-- The delimiter set `parsing_delim`. -/
def parsing_delim : List Char := " \n".toList

/-- How a call of `mucmd_parsed_command_create` ends: it returns `NULL`, it
returns the record, it stores outside a live block (undefined behaviour), or
the loop of the embedding runs out of steps (shown below never to happen). -/
inductive parse_outcome (κ : Type) where
  | null
  | command (c : mucmd_parsed_command κ)
  | undefined
  | exhausted

/-- The result of `mucmd_parsed_command_create`: the outcome, the line buffer as
the call left it, and the world. -/
structure parse_result (κ : Type) where
  outcome : parse_outcome κ
  input : List Char
  world : World κ

/-- The loop `while (true)` of `mucmd_parsed_command_create` (lines 116-128). -/
def mucmd_parsed_command_create.loop {κ : Type} :
    Nat → List Char → World κ → mucmd_parsed_command κ → Nat → parse_result κ
  | 0, input, w, _, _ => ⟨parse_outcome.exhausted, input, w⟩
  | fuel + 1, input, w, command, capacity =>
    match strtok input w.save none parsing_delim with
    | (none, input, save) =>
      ⟨parse_outcome.command command, input,
        (MUCMD_REALLOC command.allocator { w with save := save } command.argv
          (command.argc.toNat * sizeof_char_ptr)).2⟩
    | (some arg, input, save) =>
      match store_arg { w with save := save } command.argv command.argc.toNat arg with
      | (false, w) => ⟨parse_outcome.undefined, input, w⟩
      | (true, w) =>
        if command.argc + 1 = (capacity : Int) then
          mucmd_parsed_command_create.loop fuel input
            (MUCMD_REALLOC command.allocator w command.argv
              ((capacity <<< 1) * sizeof_char_ptr)).2
            { command with argc := command.argc + 1 } (capacity <<< 1)
        else
          mucmd_parsed_command_create.loop fuel input w
            { command with argc := command.argc + 1 } capacity

/-- The value of an `int` field kept in the low half of the 8-byte word `x`: the
32 low bits, read as a signed integer. -/
def int_field (x : Int) : Int :=
  (x + 2147483648) % 4294967296 - 2147483648

/-- The function `mucmd_parsed_command_create`.  The fields of the fresh record
hold what the allocator left in the block until they are assigned: `name` and
`argv` are the first and third word, `argc` is the `int` in the second. -/
def mucmd_parsed_command_create {κ : Type} (input : List Char)
    (allocator : mucmd_allocator κ) (w : World κ) : parse_result κ :=
  match MUCMD_ALLOC allocator w sizeof_parsed_command with
  | (p, junk, w) =>
    if p = 0 then ⟨parse_outcome.null, input, mucmd_parsed_command_destroy none w⟩
    else
      match strtok input w.save (some 0) parsing_delim with
      | (none, input, save) =>
        ⟨parse_outcome.null, input,
          mucmd_parsed_command_destroy
            (some ⟨p, (junk 0).toNat, int_field (junk 1), (junk 2).toNat, allocator⟩)
            { w with save := save }⟩
      | (some name, input, save) =>
        match MUCMD_ALLOC allocator { w with save := save } (16 * sizeof_char_ptr) with
        | (q, _, w) =>
          if q = 0 then
            ⟨parse_outcome.null, input,
              mucmd_parsed_command_destroy (some ⟨p, name, 0, q, allocator⟩) w⟩
          else
            mucmd_parsed_command_create.loop (input.length + 1) input w
              ⟨p, name, 0, q, allocator⟩ 16

/-! ## Directives and the command listing (`mucmd.h` lines 135-166) -/

/-- The function `mucmd_exit`. -/
def mucmd_exit (input : List Char) : Bool :=
  strcmp input "exit\n".toList == 0

/-- The function `mucmd_info`. -/
def mucmd_info (input : List Char) : Bool :=
  strcmp input "info\n".toList == 0

/-- The line `mucmd_print_info` writes for one entry. -/
def info_line (c : mucmd_command) : List Char :=
  match c.desc with
  | some desc => c_str c.name ++ "\t".toList ++ c_str desc ++ "\n".toList
  | none => c_str c.name ++ "\n".toList

/-- The loop `for` of `mucmd_print_info`: `k` entries left, from index `i`. -/
def mucmd_print_info.loop {κ : Type} (m : mucmd κ) : Nat → Nat → World κ → Option (World κ)
  | 0, _, w => some w
  | k + 1, i, w =>
    match read_command w m.cmds i with
    | none => none
    | some c => mucmd_print_info.loop m k (i + 1) (w.emit (Event.stdout (info_line c)))

/-- The function `mucmd_print_info`; `none` when it reads outside a live table. -/
def mucmd_print_info {κ : Type} (m : mucmd κ) (w : World κ) : Option (World κ) :=
  if m.cmds_number = 0 then
    some (w.emit (Event.stdout "you have no registered commands\n".toList))
  else mucmd_print_info.loop m m.cmds_number 0 w

/-! ## Set-up, registration and tear-down (`mucmd.h` lines 168-208) -/

/-- The function `mucmd_init`. -/
def mucmd_init {κ : Type} (allocator : mucmd_allocator κ) : mucmd κ :=
  ⟨allocator, 0, 0⟩

/-- The function `mucmd_deinit`, on a non-null interpreter.  The allocator of
the embedding always has its release operation, so the test of
`allocator.free` holds. -/
def mucmd_deinit {κ : Type} (m : mucmd κ) (w : World κ) : mucmd κ × World κ :=
  ({ m with cmds_number := 0 }, if m.cmds ≠ 0 then MUCMD_FREE m.allocator w m.cmds else w)

/-- The loop `while (true)` of `mucmd_set_commands` (lines 192-197) over the
host's array: the index of the first entry with a null handler; `none` when
the scan runs off the array. -/
def mucmd_set_commands.count : List mucmd_command → Nat → Option Nat
  | [], _ => none
  | c :: cs, n => if c.handler = 0 then some n else mucmd_set_commands.count cs (n + 1)

/-- The call `memcpy` of `mucmd_set_commands` into the block `dst`. -/
def memcpy_commands {κ : Type} (w : World κ) (dst : Nat) (es : List mucmd_command) :
    World κ :=
  { w with
    heap := Function.update w.heap dst
      ((w.heap dst).map (fun b => { b with content := Content.table es })) }

/-- The function `mucmd_set_commands` on the host's array `cmds`: the status, the
interpreter and the world; `none` when the array has no sentinel. -/
def mucmd_set_commands {κ : Type} (m : mucmd κ) (cmds : List mucmd_command) (w : World κ) :
    Option (Int × mucmd κ × World κ) :=
  match mucmd_set_commands.count cmds 0 with
  | none => none
  | some cmds_number =>
    match MUCMD_ALLOC m.allocator
        (if m.cmds ≠ 0 then MUCMD_FREE m.allocator w m.cmds else w)
        (cmds_number * sizeof_command) with
    | (p, _, w) =>
      if p = 0 then
        some (-1, ⟨m.allocator, p, if m.cmds ≠ 0 then 0 else m.cmds_number⟩, w)
      else
        some (0, ⟨m.allocator, p, cmds_number⟩,
          memcpy_commands w p (cmds.take cmds_number))

/-! ## The dispatch loop (`mucmd.h` lines 210-256) -/

/-- What one call of `getline` gives: its return value (`-1` at end of input)
and the contents of the line buffer after the call. -/
structure getline_result where
  ret : Int
  line : List Char

/-- The loop `for` of `mucmd_run` (lines 237-242): `k` entries left, from index
`i`.  The outer `none` is a read outside a live table; `some none` is `c == NULL`
after the loop; `some (some (i, c))` is the break at index `i`. -/
def mucmd_run.lookup {κ : Type} (m : mucmd κ) (w : World κ) (name : List Char) :
    Nat → Nat → Option (Option (Nat × mucmd_command))
  | 0, _ => some none
  | k + 1, i =>
    match read_command w m.cmds i with
    | none => none
    | some c =>
      if strcmp name c.name = 0 then some (some (i, c))
      else mucmd_run.lookup m w name k (i + 1)

/-- How one pass through the body of the loop of `mucmd_run` ends: at the next
pass (with the line buffer), at the label `exit`, or in undefined behaviour. -/
inductive iter_outcome (κ : Type) where
  | next (line : List Char) (w : World κ)
  | exit (line : List Char) (w : World κ)
  | undefined (w : World κ)

/-- The banner `mucmd_run` prints first. -/
def banner : List Char :=
  "mucmd interpreter.\nEnter \"info\" for commands list.\nEnter \"exit\" to close.\n\n".toList

/-- One pass through the body of `while (true)` in `mucmd_run` (lines 216-249).
`line` is the variable `line` at the top of the loop (`none` for `NULL`), `r`
is what `getline` gives in this pass, and `hs` gives the status each handler
returns. -/
def mucmd_run.iter {κ : Type} (hs : Nat → Int → Option (List (List Char)) → Int)
    (m : mucmd κ) (line : Option (List Char)) (r : getline_result) (w : World κ) :
    iter_outcome κ :=
  let w := if line.isSome then w.emit Event.free_line else w
  let w := (w.emit (Event.stdout MUCMD_PROMPT)).emit (Event.getline r.ret)
  if mucmd_exit r.line then iter_outcome.exit r.line w
  else if mucmd_info r.line then
    match mucmd_print_info m w with
    | none => iter_outcome.undefined w
    | some w => iter_outcome.next r.line w
  else
    match mucmd_parsed_command_create r.line m.allocator w with
    | ⟨parse_outcome.null, input, w⟩ =>
      iter_outcome.next input (w.emit (Event.stderr "[mucmd:WARN] cmd parsing failed\n".toList))
    | ⟨parse_outcome.command cmd_parsed, input, w⟩ =>
      match mucmd_run.lookup m w (input.drop cmd_parsed.name) m.cmds_number 0 with
      | none => iter_outcome.undefined w
      | some none =>
        iter_outcome.next input
          (mucmd_parsed_command_destroy (some cmd_parsed)
            (w.emit (Event.stderr "[mucmd:WARN] cmd unknown\n".toList)))
      | some (some (_, c)) =>
        if c.handler = 0 then iter_outcome.undefined w
        else
          let _status : Int :=
            hs c.handler cmd_parsed.argc (argv_strings w input cmd_parsed.argv cmd_parsed.argc)
          iter_outcome.next input
            (mucmd_parsed_command_destroy (some cmd_parsed)
              (w.emit (Event.call c.handler cmd_parsed.argc cmd_parsed.argv
                (argv_strings w input cmd_parsed.argv cmd_parsed.argc))))
    | ⟨_, _, w⟩ => iter_outcome.undefined w

/-- How `mucmd_run` stands after the reads it was given: it has returned a
status, it is at the top of the loop waiting for more input, or it has run
into undefined behaviour. -/
inductive run_outcome (κ : Type) where
  | returned (res : Int) (w : World κ)
  | reading (line : Option (List Char)) (w : World κ)
  | undefined (w : World κ)

/-- The loop `while (true)` of `mucmd_run` fed with the successive results of
`getline`, and the code after the label `exit`. -/
def mucmd_run.loop {κ : Type} (hs : Nat → Int → Option (List (List Char)) → Int)
    (m : mucmd κ) : List getline_result → Option (List Char) → World κ → run_outcome κ
  | [], line, w => run_outcome.reading line w
  | r :: rs, line, w =>
    match mucmd_run.iter hs m line r w with
    | iter_outcome.exit _ w => run_outcome.returned 0 (w.emit Event.free_line)
    | iter_outcome.next line w => mucmd_run.loop hs m rs (some line) w
    | iter_outcome.undefined w => run_outcome.undefined w

/-- The function `mucmd_run` fed with the successive results of `getline`. -/
def mucmd_run {κ : Type} (hs : Nat → Int → Option (List (List Char)) → Int)
    (m : mucmd κ) (input : List getline_result) (w : World κ) : run_outcome κ :=
  mucmd_run.loop hs m input none (w.emit (Event.stdout banner))

/-! ## The host of `examples/main.c` -/

/-- The address of `hello_handler`. -/
def hello_handler : Nat := 1

/-- The address of `sum_handler`. -/
def sum_handler : Nat := 2

/-- The array `cmds` of `examples/main.c`, sentinel included. -/
def cmds : List mucmd_command :=
  [⟨"hello".toList, hello_handler, some "prints greetings".toList⟩,
   ⟨"sum".toList, sum_handler, some "the sum of two numbers".toList⟩,
   ⟨[], 0, none⟩]

/-! ## Vocabulary of the properties -/

/-- A delimiter in the words of the specification: a space or a newline. -/
def is_delim (c : Char) : Bool := c == Char.ofNat 32 || c == Char.ofNat 10

/-- The tokens of a line in the words of the specification: the maximal
non-empty runs of characters of the line that are neither space nor newline. -/
def line_tokens (line : List Char) : List (List Char) :=
  ((c_str line).splitOnP is_delim).filter (fun t => !t.isEmpty)

/-- The interpreter `m` owns, in the world `w`, a table holding exactly the
entries `es`: the state a successful `mucmd_set_commands` leaves. -/
def registered {κ : Type} (w : World κ) (m : mucmd κ) (es : List mucmd_command) : Prop :=
  m.cmds_number = es.length ∧ (∀ c ∈ es, c.handler ≠ 0) ∧
    w.heap m.cmds = some ⟨es.length * sizeof_command, Content.table es⟩

/-- The events of a run that are not about the table: what a pass of the loop
adds to the trace before it looks at the line. -/
def pass_start (line : Option (List Char)) (r : getline_result) : List Event :=
  (if line.isSome then [Event.free_line] else []) ++
    [Event.stdout MUCMD_PROMPT, Event.getline r.ret]

/-- The interpreter states that `mucmd_init` followed by any sequence of calls of
`mucmd_set_commands` can produce, with the world they are reached in. -/
inductive reachable {κ : Type} (allocator : mucmd_allocator κ) (w0 : World κ) :
    mucmd κ → World κ → Prop where
  | init : reachable allocator w0 (mucmd_init allocator) w0
  | set_commands {m m1 : mucmd κ} {w w1 : World κ} {cmds : List mucmd_command} {res : Int} :
      reachable allocator w0 m w →
      mucmd_set_commands m cmds w = some (res, m1, w1) →
      reachable allocator w0 m1 w1

/-- The registrations of a session: `mucmd_set_commands` on each array in turn. -/
def session.registrations {κ : Type} :
    mucmd κ → List (List mucmd_command) → World κ → Option (mucmd κ × World κ)
  | m, [], w => some (m, w)
  | m, cmds :: rest, w =>
    match mucmd_set_commands m cmds w with
    | none => none
    | some (_, m1, w1) => session.registrations m1 rest w1

/-- A session of the host: `mucmd_init`, the registrations `regs` in turn, then
`mucmd_deinit`.  Gives the final world. -/
def session {κ : Type} (allocator : mucmd_allocator κ) (regs : List (List mucmd_command))
    (w : World κ) : Option (World κ) :=
  match session.registrations (mucmd_init allocator) regs w with
  | none => none
  | some (m, w1) => some (mucmd_deinit m w1).2

/-- The blocks a trace obtains from the allocate operation, in order. -/
def obtained (t : List Event) : List Nat :=
  t.filterMap (fun e =>
    match e with
    | Event.alloc _ p => if p = 0 then none else some p
    | _ => none)

/-- The blocks a trace passes to the release operation, in order. -/
def released (t : List Event) : List Nat :=
  t.filterMap (fun e =>
    match e with
    | Event.free p => some p
    | _ => none)

/-- The allocator calls of a host that makes the requests `reqs` (size asked,
pointer returned) in turn and passes each block it obtained to release before
it makes the next request. -/
def table_traffic (reqs : List (Nat × Nat)) : List Event :=
  reqs.flatMap (fun r =>
    if r.2 = 0 then [Event.alloc r.1 0] else [Event.alloc r.1 r.2, Event.free r.2])

/-- The handler invocations of a trace, in order. -/
def handler_calls (t : List Event) : List Event :=
  t.filter (fun e =>
    match e with
    | Event.call _ _ _ _ => true
    | _ => false)

/-! ## Hosts used as concrete instances -/

/-- A host allocator whose requests all succeed, that leaves zeros in fresh
blocks, and whose reallocate resizes the block in place. -/
def in_place_allocator : mucmd_allocator Unit :=
  ⟨fun c _ => (some (fun _ => 0), c), fun c _ _ => (realloc_reply.same, c), fun c _ => c⟩

/-- A host allocator whose requests all succeed, that leaves zeros in fresh
blocks, and whose reallocate always returns a new block. -/
def moving_allocator : mucmd_allocator Unit :=
  ⟨fun c _ => (some (fun _ => 0), c), fun c _ _ => (realloc_reply.moved, c), fun c _ => c⟩

/-- A host allocator whose context counts the requests made: the first
allocate succeeds, every later one fails. -/
def one_shot_allocator : mucmd_allocator Nat :=
  ⟨fun c _ => (if c = 0 then some (fun _ => 0) else none, c + 1),
   fun c _ _ => (realloc_reply.same, c), fun c _ => c⟩

/-- The interpreter and the world of `examples/main.c` when `mucmd_run` is
called: after `mucmd_init` and `mucmd_set_commands` on `cmds`. -/
def main_state {κ : Type} (allocator : mucmd_allocator κ) (ctx : κ) : mucmd κ × World κ :=
  match mucmd_set_commands (mucmd_init allocator) cmds (World.init ctx) with
  | some (_, m, w) => (m, w)
  | none => (mucmd_init allocator, World.init ctx)

/-- The handlers of a host that all return status `0`. -/
def zero_status : Nat → Int → Option (List (List Char)) → Int := fun _ _ _ => 0

/-- The trace of the world a call of `mucmd_parsed_command_create` ends in. -/
def parse_result.trace {κ : Type} (r : parse_result κ) : List Event := r.world.trace

/-- The trace of the world a pass through the loop ends in. -/
def iter_outcome.trace {κ : Type} : iter_outcome κ → List Event
  | iter_outcome.next _ w => w.trace
  | iter_outcome.exit _ w => w.trace
  | iter_outcome.undefined w => w.trace

/-- A host allocator whose requests all succeed, that leaves zeros in fresh
blocks, and whose reallocate resizes in place up to 128 bytes and returns a new
block for any larger size. -/
def growing_allocator : mucmd_allocator Unit :=
  ⟨fun c _ => (some (fun _ => 0), c),
   fun c _ n => (if 128 < n then realloc_reply.moved else realloc_reply.same, c),
   fun c _ => c⟩

/-- The warnings of a trace: what was written to the error stream, in order. -/
def warnings (t : List Event) : List Event :=
  t.filter (fun e =>
    match e with
    | Event.stderr _ => true
    | _ => false)

/-- The discipline of the argument array `argv` in the events of the loop of
the tokenizer, read from left to right.  `capacity` is the number of entries
most recently requested from the allocator and `argc` the number of stores made
so far.  A store is at index `argc`, which is below `capacity`.  When `argc`
has reached `capacity` the next event is a request for twice `capacity`
entries; a request made at any other moment asks for exactly `argc` entries and
is the last event. -/
def array_discipline (argv : Nat) : Nat → Nat → List Event → Bool
  | _, _, [] => true
  | capacity, argc, Event.store ptr idx _ :: t =>
    ptr == argv && idx == argc && decide (argc < capacity) &&
      array_discipline argv capacity (argc + 1) t
  | capacity, argc, Event.realloc ptr size _ :: t =>
    if argc = capacity then
      ptr == argv && size == 2 * capacity * sizeof_char_ptr &&
        array_discipline argv (2 * capacity) argc t
    else ptr == argv && size == argc * sizeof_char_ptr && t.isEmpty
  | _, _, _ :: _ => false

/-- A host allocator whose allocate always succeeds, leaving zeros in fresh
blocks, and whose reallocate always fails: it returns `NULL` and leaves the
block alone. -/
def refusing_allocator : mucmd_allocator Unit :=
  ⟨fun c _ => (some (fun _ => 0), c), fun c _ _ => (realloc_reply.null, c), fun c _ => c⟩

/-- A host allocator that resizes in place and whose fresh blocks are not
zeroed: every word of a fresh block holds `7`. -/
def dirty_allocator : mucmd_allocator Unit :=
  ⟨fun c _ => (some (fun _ => 7), c), fun c _ _ => (realloc_reply.same, c), fun c _ => c⟩

/-- The address of a handler the host registers under the name `exit`. -/
def exit_handler : Nat := 3

/-- A host array that registers a command named `exit`, sentinel included. -/
def cmds_with_exit : List mucmd_command :=
  [⟨"hello".toList, hello_handler, none⟩, ⟨"exit".toList, exit_handler, none⟩, ⟨[], 0, none⟩]

/-- The interpreter and the world of a host that has registered
`cmds_with_exit`. -/
def exit_state {κ : Type} (allocator : mucmd_allocator κ) (ctx : κ) : mucmd κ × World κ :=
  match mucmd_set_commands (mucmd_init allocator) cmds_with_exit (World.init ctx) with
  | some (_, m, w) => (m, w)
  | none => (mucmd_init allocator, World.init ctx)

/-- The table of the interpreter `m` in the world `w` is `es`: either the count
`cmds_number` is zero and `es` is empty, whatever the pointer `cmds` is (`NULL`
after `mucmd_init` and after a failed registration), or `m` owns a live block
holding exactly `es`. -/
def table_is {κ : Type} (w : World κ) (m : mucmd κ) (es : List mucmd_command) : Prop :=
  (m.cmds_number = 0 ∧ es = []) ∨ registered w m es

/-- The interpreter and the world of a host whose registration of `cmds` failed:
the allocator refuses the request for the table. -/
def failed_state : mucmd Nat × World Nat :=
  match mucmd_set_commands (mucmd_init one_shot_allocator) cmds (World.init 1) with
  | some (_, m, w) => (m, w)
  | none => (mucmd_init one_shot_allocator, World.init 1)

/-! ## Properties -/

/-! ### The loop over the reads, and the directive `exit` -/

theorem loop_append {κ : Type} (hs : Nat → Int → Option (List (List Char)) → Int)
    (m : mucmd κ) (pre rest : List getline_result) (line : Option (List Char)) (w : World κ) :
    mucmd_run.loop hs m (pre ++ rest) line w =
      match mucmd_run.loop hs m pre line w with
      | run_outcome.reading line1 w1 => mucmd_run.loop hs m rest line1 w1
      | o => o := by
  induction pre generalizing line w with
  | nil => simp [mucmd_run.loop]
  | cons r rs ih =>
    simp only [List.cons_append, mucmd_run.loop]
    cases h : mucmd_run.iter hs m line r w with
    | next l w1 => exact ih (some l) w1
    | exit l w1 => rfl
    | undefined w1 => rfl

theorem mucmd_exit_literal : mucmd_exit "exit\n".toList = true := by decide

theorem iter_exit {κ : Type} (hs : Nat → Int → Option (List (List Char)) → Int)
    (m : mucmd κ) (line : Option (List Char)) (r : getline_result) (w : World κ)
    (h : mucmd_exit r.line = true) :
    mucmd_run.iter hs m line r w =
      iter_outcome.exit r.line { w with trace := w.trace ++ pass_start line r } := by
  unfold mucmd_run.iter
  simp only [h, if_true]
  cases line <;> simp [World.emit, pass_start]

/-- Claim C8: whatever the table and whatever lines came before, once the loop
is back at its top and the line read is exactly `"exit\n"`, `mucmd_run` returns
status `0`; the pass adds to the trace only the release of the previous line
buffer (if any), the prompt, the read and the release of the line buffer, and
leaves the allocator state, the heap and the position of `strtok` untouched:
the line is not tokenized and no handler is invoked. -/
theorem exit_directive_stops {κ : Type} (hs : Nat → Int → Option (List (List Char)) → Int)
    (m : mucmd κ) (pre post : List getline_result) (r : getline_result)
    (w0 w : World κ) (line : Option (List Char))
    (hread : mucmd_run hs m pre w0 = run_outcome.reading line w)
    (hline : r.line = "exit\n".toList) :
    mucmd_run hs m (pre ++ r :: post) w0 =
      run_outcome.returned 0
        { w with trace := w.trace ++ pass_start line r ++ [Event.free_line] } := by
  unfold mucmd_run at hread ⊢
  rw [loop_append, hread]
  simp only [mucmd_run.loop]
  rw [iter_exit hs m line r w (by rw [hline]; exact mucmd_exit_literal)]
  simp [World.emit]

/-! ### The directive `info` -/

theorem read_command_registered {κ : Type} {w : World κ} {m : mucmd κ}
    {es : List mucmd_command} (h : registered w m es) (i : Nat) :
    read_command w m.cmds i = es[i]? := by
  unfold read_command
  rw [h.2.2]
  simp only [sizeof_command]
  split
  · rfl
  · rename_i hlt
    have : es.length ≤ i := by omega
    exact (List.getElem?_eq_none this).symm

theorem read_command_heap {κ : Type} (w1 w2 : World κ) (h : w1.heap = w2.heap) (p i : Nat) :
    read_command w1 p i = read_command w2 p i := by
  unfold read_command; rw [h]

theorem print_info_loop {κ : Type} {w : World κ} {m : mucmd κ} {es : List mucmd_command}
    (h : registered w m es) (k : Nat) :
    ∀ (i : Nat) (w1 : World κ), w1.heap = w.heap → i + k ≤ es.length →
      mucmd_print_info.loop m k i w1 =
        some { w1 with trace := w1.trace ++
          ((es.drop i).take k).map (fun c => Event.stdout (info_line c)) } := by
  induction k with
  | zero => intro i w1 _ _; simp [mucmd_print_info.loop]
  | succ k ih =>
    intro i w1 hw hik
    have hi : i < es.length := by omega
    unfold mucmd_print_info.loop
    rw [read_command_heap w1 w hw, read_command_registered h, List.getElem?_eq_getElem hi]
    simp only
    rw [ih (i + 1) _ (by simpa [World.emit] using hw) (by omega), List.drop_eq_getElem_cons hi]
    simp only [World.emit, List.take_succ_cons, List.map_cons, List.append_assoc,
      List.singleton_append]

theorem mucmd_info_literal : mucmd_info "info\n".toList = true := by decide
theorem mucmd_exit_info : mucmd_exit "info\n".toList = false := by decide

theorem print_info_registered {κ : Type} {w : World κ} {m : mucmd κ} {es : List mucmd_command}
    (h : registered w m es) (w1 : World κ) (hw : w1.heap = w.heap) :
    mucmd_print_info m w1 =
      some { w1 with trace := w1.trace ++
        (if es = [] then [Event.stdout "you have no registered commands\n".toList]
         else es.map (fun c => Event.stdout (info_line c))) } := by
  unfold mucmd_print_info
  by_cases hes : es = []
  · have : m.cmds_number = 0 := by rw [h.1, hes]; rfl
    simp [this, hes, World.emit]
  · have : m.cmds_number ≠ 0 := by
      rw [h.1]; intro h0; exact hes (List.length_eq_zero.mp h0)
    rw [if_neg this, print_info_loop h m.cmds_number 0 w1 hw (by rw [h.1]; omega)]
    simp [hes, h.1]

theorem print_info_table {κ : Type} {w : World κ} {m : mucmd κ} {es : List mucmd_command}
    (h : table_is w m es) (w1 : World κ) (hw : w1.heap = w.heap) :
    mucmd_print_info m w1 =
      some { w1 with trace := w1.trace ++
        (if es = [] then [Event.stdout "you have no registered commands\n".toList]
         else es.map (fun c => Event.stdout (info_line c))) } := by
  rcases h with ⟨hcount, hes⟩ | hreg
  · unfold mucmd_print_info
    simp [hcount, hes, World.emit]
  · exact print_info_registered hreg w1 hw

/-- Claim C10: for every interpreter whose table is `es` (a registered table, or
a count of zero with no entry, whatever the pointer `cmds` is: after
`mucmd_init`, after a failed registration, after registering an empty array),
when the line read is exactly `"info\n"` the pass writes to standard output,
after the prompt, one line per entry in table order (the name alone when the
description is absent, the name, a TAB and the description when it is present),
or the single message `you have no registered commands` when the table is
empty; it tokenizes nothing, invokes no handler, and the loop is back at its
top for the next prompt. -/
theorem info_directive_lists {κ : Type} (hs : Nat → Int → Option (List (List Char)) → Int)
    (m : mucmd κ) (es : List mucmd_command) (pre : List getline_result) (r : getline_result)
    (w0 w : World κ) (line : Option (List Char))
    (hread : mucmd_run hs m pre w0 = run_outcome.reading line w)
    (htable : table_is w m es)
    (hline : r.line = "info\n".toList) :
    mucmd_run hs m (pre ++ [r]) w0 =
      run_outcome.reading (some r.line)
        { w with trace := w.trace ++ pass_start line r ++
          (if es = [] then [Event.stdout "you have no registered commands\n".toList]
           else es.map (fun c => Event.stdout
             (match c.desc with
              | some desc => c_str c.name ++ "\t".toList ++ c_str desc ++ "\n".toList
              | none => c_str c.name ++ "\n".toList))) } := by
  unfold mucmd_run at hread ⊢
  rw [loop_append, hread]
  simp only [mucmd_run.loop, mucmd_run.iter]
  rw [hline, mucmd_exit_info, mucmd_info_literal]
  simp only [Bool.false_eq_true, if_false, if_true]
  rw [print_info_table htable _ (by cases line <;> rfl)]
  cases line <;> simp [World.emit, pass_start, info_line]

/-! ### String comparison and the lookup -/

theorem toNat_eq_zero (c : Char) : c.toNat = 0 ↔ c = NUL := by
  constructor
  · intro h
    have := Char.ofNat_toNat c
    rw [h] at this
    exact this.symm
  · intro h; rw [h]; rfl

theorem toNat_inj {a b : Char} (h : a.toNat = b.toNat) : a = b := by
  rw [← Char.ofNat_toNat a, ← Char.ofNat_toNat b, h]

theorem c_str_nil : c_str [] = [] := rfl

theorem c_str_cons (a : Char) (s : List Char) :
    c_str (a :: s) = if a = NUL then [] else a :: c_str s := by
  unfold c_str
  by_cases h : a = NUL <;> simp [List.takeWhile_cons, h]

theorem strcmp_eq_zero (a b : List Char) : strcmp a b = 0 ↔ c_str a = c_str b := by
  induction a generalizing b with
  | nil =>
    cases b with
    | nil => simp [strcmp]
    | cons b t =>
      simp only [strcmp, c_str_nil, c_str_cons]
      by_cases hb : b = NUL
      · simp [hb, (toNat_eq_zero NUL).mpr rfl]
      · have : b.toNat ≠ 0 := fun h => hb ((toNat_eq_zero b).mp h)
        simp [hb]; omega
  | cons a s ih =>
    cases b with
    | nil =>
      simp only [strcmp, c_str_nil, c_str_cons]
      by_cases ha : a = NUL
      · simp [ha, (toNat_eq_zero NUL).mpr rfl]
      · have : a.toNat ≠ 0 := fun h => ha ((toNat_eq_zero a).mp h)
        simp [ha]; omega
    | cons b t =>
      simp only [strcmp, c_str_cons]
      by_cases hab : a = b
      · subst hab
        by_cases ha : a = NUL
        · simp [ha]
        · simp [ha, ih]
      · have hn : a.toNat ≠ b.toNat := fun h => hab (toNat_inj h)
        rw [if_neg hab]
        constructor
        · intro h; omega
        · intro h
          exfalso
          by_cases ha : a = NUL <;> by_cases hb : b = NUL
          · exact hab (ha.trans hb.symm)
          · simp [ha, hb] at h
          · simp [ha, hb] at h
          · simp [ha, hb] at h; exact hab h.1

theorem lookup_from {κ : Type} {w : World κ} {m : mucmd κ} {es : List mucmd_command}
    (h : registered w m es) (q : List Char) (k : Nat) :
    ∀ i, i + k = es.length →
      (∀ j c, es[j]? = some c → i ≤ j → c_str c.name = c_str q →
          (∀ j1 d, i ≤ j1 → j1 < j → es[j1]? = some d → c_str d.name ≠ c_str q) →
          mucmd_run.lookup m w q k i = some (some (j, c))) ∧
      ((∀ j d, i ≤ j → es[j]? = some d → c_str d.name ≠ c_str q) →
          mucmd_run.lookup m w q k i = some none) := by
  induction k with
  | zero =>
    intro i hi
    constructor
    · intro j c hj hij _ _
      have := (List.getElem?_eq_some.mp hj).1
      omega
    · intro _; rfl
  | succ k ih =>
    intro i hi
    have hlt : i < es.length := by omega
    have hread : read_command w m.cmds i = some es[i] := by
      rw [read_command_registered h, List.getElem?_eq_getElem hlt]
    obtain ⟨ih1, ih2⟩ := ih (i + 1) (by omega)
    constructor
    · intro j c hj hij hc hmin
      unfold mucmd_run.lookup
      rw [hread]
      simp only
      by_cases hji : j = i
      · subst hji
        have hce : es[j] = c := by
          rw [List.getElem?_eq_getElem hlt] at hj; exact Option.some.inj hj
        rw [hce, if_pos ((strcmp_eq_zero _ _).mpr hc.symm)]
      · have hne : c_str es[i].name ≠ c_str q :=
          hmin i es[i] (le_refl i) (by omega) (List.getElem?_eq_getElem hlt)
        rw [if_neg (fun h0 => hne ((strcmp_eq_zero _ _).mp h0).symm)]
        exact ih1 j c hj (by omega) hc (fun j1 d h1 h2 h3 => hmin j1 d (by omega) h2 h3)
    · intro hnone
      unfold mucmd_run.lookup
      rw [hread]
      simp only
      have hne : c_str es[i].name ≠ c_str q :=
        hnone i es[i] (le_refl i) (List.getElem?_eq_getElem hlt)
      rw [if_neg (fun h0 => hne ((strcmp_eq_zero _ _).mp h0).symm)]
      exact ih2 (fun j d h1 h2 => hnone j d (by omega) h2)

theorem lookup_at_zero {κ : Type} (w : World κ) (m : mucmd κ)
    (es : List mucmd_command) (hreg : registered w m es) (q : List Char) :
    (∀ i c, es[i]? = some c → c_str c.name = c_str q →
        (∀ j d, j < i → es[j]? = some d → c_str d.name ≠ c_str q) →
        mucmd_run.lookup m w q m.cmds_number 0 = some (some (i, c))) ∧
    ((∀ d ∈ es, c_str d.name ≠ c_str q) →
        mucmd_run.lookup m w q m.cmds_number 0 = some none) := by
  obtain ⟨h1, h2⟩ := lookup_from hreg q m.cmds_number 0 (by rw [hreg.1]; omega)
  constructor
  · intro i c hi hc hmin
    exact h1 i c hi (Nat.zero_le i) hc (fun j d _ hj hd => hmin j d hj hd)
  · intro hnone
    exact h2 (fun j d _ hd => hnone d (List.getElem?_mem hd))

/-- Claim C3: on a registered table `es` the lookup of the dispatch loop breaks
at the entry of smallest index whose name is the same string as the query, and
ends with `c == NULL` (not found) when no entry has that very name; names that
differ from the query in anything, letter case included, do not match. -/
theorem lookup_first_exact_match {κ : Type} (w : World κ) (m : mucmd κ)
    (es : List mucmd_command) (hreg : registered w m es) (q : List Char) :
    (∀ i c, es[i]? = some c → c_str c.name = c_str q →
        (∀ j d, j < i → es[j]? = some d → c_str d.name ≠ c_str q) →
        mucmd_run.lookup m w q m.cmds_number 0 = some (some (i, c))) ∧
    ((∀ d ∈ es, c_str d.name ≠ c_str q) →
        mucmd_run.lookup m w q m.cmds_number 0 = some none) :=
  lookup_at_zero w m es hreg q

/-! ### Registration -/

theorem count_sentinel (es : List mucmd_command) (s : mucmd_command) (rest : List mucmd_command)
    (hes : ∀ c ∈ es, c.handler ≠ 0) (hs : s.handler = 0) (n : Nat) :
    mucmd_set_commands.count (es ++ s :: rest) n = some (n + es.length) := by
  induction es generalizing n with
  | nil => simp [mucmd_set_commands.count, hs]
  | cons c cs ih =>
    have hc : c.handler ≠ 0 := hes c (List.mem_cons_self _ _)
    rw [List.cons_append]
    unfold mucmd_set_commands.count
    rw [if_neg hc, ih (fun d hd => hes d (List.mem_cons_of_mem _ hd))]
    simp only [List.length_cons]
    congr 1; omega

theorem count_total (cmds : List mucmd_command) (h : ∃ c ∈ cmds, c.handler = 0) (n : Nat) :
    ∃ k, mucmd_set_commands.count cmds n = some k := by
  induction cmds generalizing n with
  | nil => obtain ⟨c, hc, _⟩ := h; cases hc
  | cons c cs ih =>
    unfold mucmd_set_commands.count
    by_cases hc : c.handler = 0
    · exact ⟨n, by rw [if_pos hc]⟩
    · rw [if_neg hc]
      obtain ⟨d, hd, hd0⟩ := h
      rcases List.mem_cons.mp hd with rfl | hd
      · exact absurd hd0 hc
      · exact ih ⟨d, hd, hd0⟩ (n + 1)

theorem alloc_ok {κ : Type} (a : mucmd_allocator κ) (w : World κ) (size : Nat)
    (h : (a.alloc w.ctx size).1 ≠ none) :
    ∃ junk w1, MUCMD_ALLOC a w size = (w.next + 1, junk, w1) ∧
      w1.heap = Function.update w.heap (w.next + 1) (some ⟨size, Content.raw⟩) ∧
      w1.next = w.next + 1 ∧ w1.save = w.save ∧
      w1.trace = w.trace ++ [Event.alloc size (w.next + 1)] := by
  unfold MUCMD_ALLOC
  cases hq : a.alloc w.ctx size with
  | mk o c =>
    cases o with
    | none => rw [hq] at h; exact absurd rfl h
    | some junk => exact ⟨junk, _, rfl, rfl, rfl, rfl, rfl⟩

theorem alloc_fail {κ : Type} (a : mucmd_allocator κ) (w : World κ) (size : Nat)
    (h : (a.alloc w.ctx size).1 = none) :
    ∃ w1, MUCMD_ALLOC a w size = (0, fun _ => 0, w1) ∧ w1.heap = w.heap ∧ w1.next = w.next ∧
      w1.save = w.save ∧ w1.trace = w.trace ++ [Event.alloc size 0] := by
  unfold MUCMD_ALLOC
  cases hq : a.alloc w.ctx size with
  | mk o c =>
    cases o with
    | none => exact ⟨_, rfl, rfl, rfl, rfl, rfl⟩
    | some junk => rw [hq] at h; cases h

theorem set_commands_ok {κ : Type} (m : mucmd κ) (w : World κ)
    (es : List mucmd_command) (s : mucmd_command) (rest : List mucmd_command)
    (hes : ∀ c ∈ es, c.handler ≠ 0) (hs : s.handler = 0)
    (halloc : ∀ c n, (m.allocator.alloc c n).1 ≠ none) :
    ∃ m1 w1, mucmd_set_commands m (es ++ s :: rest) w = some (0, m1, w1) ∧
      m1.cmds ≠ 0 ∧ m1.cmds_number = es.length ∧
      w1.heap m1.cmds = some ⟨es.length * sizeof_command, Content.table es⟩ := by
  unfold mucmd_set_commands
  rw [count_sentinel es s rest hes hs 0]
  simp only [Nat.zero_add]
  generalize (if m.cmds ≠ 0 then MUCMD_FREE m.allocator w m.cmds else w) = w2
  obtain ⟨junk, w1, h1, hheap, -, -, -⟩ :=
    alloc_ok m.allocator w2 (es.length * sizeof_command) (halloc _ _)
  rw [h1]
  simp only [Nat.add_one_ne_zero, if_false]
  refine ⟨_, _, rfl, Nat.succ_ne_zero _, rfl, ?_⟩
  simp [memcpy_commands, hheap]

/-- Claim C5: on an array made of entries `es` with non-null handlers followed
by a null-handler sentinel (and anything after it), with an allocator whose
allocate succeeds, `mucmd_set_commands` returns `0` and leaves a non-null table
pointer, a count equal to the number of entries before the sentinel, and a
table block holding exactly those entries in the same order. -/
theorem set_commands_copies_table {κ : Type} (m : mucmd κ) (w : World κ)
    (es : List mucmd_command) (s : mucmd_command) (rest : List mucmd_command)
    (hes : ∀ c ∈ es, c.handler ≠ 0) (hs : s.handler = 0)
    (halloc : ∀ c n, (m.allocator.alloc c n).1 ≠ none) :
    ∃ m1 w1, mucmd_set_commands m (es ++ s :: rest) w = some (0, m1, w1) ∧
      m1.cmds ≠ 0 ∧ m1.cmds_number = es.length ∧
      w1.heap m1.cmds = some ⟨es.length * sizeof_command, Content.table es⟩ :=
  set_commands_ok m w es s rest hes hs halloc

/-! ### Registration when the allocate fails -/

theorem set_commands_cases {κ : Type} (m : mucmd κ) (cmds : List mucmd_command) (w : World κ)
    (res : Int) (m1 : mucmd κ) (w1 : World κ)
    (h : mucmd_set_commands m cmds w = some (res, m1, w1)) :
    m1.allocator = m.allocator ∧
    ((res = -1 ∧ m1.cmds = 0 ∧ m1.cmds_number = if m.cmds ≠ 0 then 0 else m.cmds_number) ∨
     (res = 0 ∧ m1.cmds ≠ 0)) := by
  unfold mucmd_set_commands at h
  cases hc : mucmd_set_commands.count cmds 0 with
  | none => rw [hc] at h; cases h
  | some k =>
    rw [hc] at h
    simp only at h
    generalize MUCMD_ALLOC m.allocator
      (if m.cmds ≠ 0 then MUCMD_FREE m.allocator w m.cmds else w) (k * sizeof_command) = r at h
    obtain ⟨p, junk, w2⟩ := r
    simp only at h
    by_cases hp : p = 0
    · rw [if_pos hp] at h
      injection h with h
      injection h with h1 h2
      injection h2 with h2 h3
      subst h1 h2 h3
      exact ⟨rfl, Or.inl ⟨rfl, hp, rfl⟩⟩
    · rw [if_neg hp] at h
      injection h with h
      injection h with h1 h2
      injection h2 with h2 h3
      subst h1 h2 h3
      exact ⟨rfl, Or.inr ⟨rfl, hp⟩⟩

theorem reachable_inv {κ : Type} {allocator : mucmd_allocator κ} {w0 : World κ}
    {m : mucmd κ} {w : World κ} (h : reachable allocator w0 m w) :
    m.allocator = allocator ∧ (m.cmds = 0 → m.cmds_number = 0) := by
  induction h with
  | init => exact ⟨rfl, fun _ => rfl⟩
  | set_commands _ hcall ih =>
    obtain ⟨ha, hcase⟩ := set_commands_cases _ _ _ _ _ _ hcall
    refine ⟨ha.trans ih.1, ?_⟩
    rcases hcase with ⟨_, _, hn⟩ | ⟨_, hp⟩
    · intro _
      rw [hn]
      split
      · rfl
      · rename_i h0
        exact ih.2 (by simpa using h0)
    · intro h0; exact absurd h0 hp

/-- Claim C6: from any state reached by `mucmd_init` and calls of
`mucmd_set_commands`, a further call on a sentinel-terminated array whose
request to the allocate operation fails returns a non-zero status and leaves
the interpreter with count `0` and a null table pointer, whatever table was
registered before. -/
theorem set_commands_failure_empties {κ : Type} (allocator : mucmd_allocator κ)
    (w0 : World κ) (m : mucmd κ) (w : World κ) (hr : reachable allocator w0 m w)
    (cmds : List mucmd_command) (hsent : ∃ c ∈ cmds, c.handler = 0)
    (hfail : ∀ k, mucmd_set_commands.count cmds 0 = some k →
      (allocator.alloc (if m.cmds ≠ 0 then MUCMD_FREE allocator w m.cmds else w).ctx
        (k * sizeof_command)).1 = none) :
    ∃ res m1 w1, mucmd_set_commands m cmds w = some (res, m1, w1) ∧
      res ≠ 0 ∧ m1.cmds_number = 0 ∧ m1.cmds = 0 := by
  obtain ⟨ha, hinv⟩ := reachable_inv hr
  obtain ⟨k, hk⟩ := count_total cmds hsent 0
  unfold mucmd_set_commands
  rw [hk, ha]
  simp only
  obtain ⟨w1, h1, -⟩ := alloc_fail allocator
    (if m.cmds ≠ 0 then MUCMD_FREE allocator w m.cmds else w) (k * sizeof_command) (hfail k hk)
  rw [h1]
  refine ⟨-1, _, _, rfl, by decide, ?_, rfl⟩
  simp only
  split
  · rfl
  · rename_i h0
    exact hinv (by simpa using h0)

/-! ### The allocator calls of a session -/

theorem obtained_append (t1 t2 : List Event) : obtained (t1 ++ t2) = obtained t1 ++ obtained t2 := by
  simp [obtained, List.filterMap_append]

theorem released_append (t1 t2 : List Event) : released (t1 ++ t2) = released t1 ++ released t2 := by
  simp [released, List.filterMap_append]

theorem table_traffic_snoc (reqs : List (Nat × Nat)) (s : Nat) (p : Nat) :
    table_traffic (reqs ++ [(s, p)]) =
      table_traffic reqs ++
        (if p = 0 then [Event.alloc s 0] else [Event.alloc s p, Event.free p]) := by
  simp [table_traffic, List.flatMap_append]

theorem obtained_traffic_snoc (reqs : List (Nat × Nat)) (s : Nat) (p : Nat) :
    obtained (table_traffic (reqs ++ [(s, p)])) =
      obtained (table_traffic reqs) ++ (if p = 0 then [] else [p]) := by
  rw [table_traffic_snoc, obtained_append]
  by_cases hp : p = 0 <;> simp [obtained, hp]

theorem released_traffic_snoc (reqs : List (Nat × Nat)) (s : Nat) (p : Nat) :
    released (table_traffic (reqs ++ [(s, p)])) =
      released (table_traffic reqs) ++ (if p = 0 then [] else [p]) := by
  rw [table_traffic_snoc, released_append]
  by_cases hp : p = 0 <;> simp [released, hp]

theorem set_commands_trace {κ : Type} (m : mucmd κ) (cmds : List mucmd_command) (w : World κ)
    (res : Int) (m1 : mucmd κ) (w1 : World κ)
    (h : mucmd_set_commands m cmds w = some (res, m1, w1)) :
    m1.allocator = m.allocator ∧
    ∃ s, w1.trace = w.trace ++ (if m.cmds ≠ 0 then [Event.free m.cmds] else []) ++
        [Event.alloc s m1.cmds] ∧
      ((m1.cmds = 0 ∧ w1.next = w.next) ∨ (m1.cmds = w.next + 1 ∧ w1.next = w.next + 1)) := by
  unfold mucmd_set_commands at h
  cases hc : mucmd_set_commands.count cmds 0 with
  | none => rw [hc] at h; cases h
  | some k =>
    rw [hc] at h
    simp only at h
    have hw2 : ∀ w2 : World κ, w2 = (if m.cmds ≠ 0 then MUCMD_FREE m.allocator w m.cmds else w) →
        w2.trace = w.trace ++ (if m.cmds ≠ 0 then [Event.free m.cmds] else []) ∧
        w2.next = w.next := by
      intro w2 h2
      by_cases h0 : m.cmds = 0 <;> simp [h0, h2, MUCMD_FREE]
    generalize (if m.cmds ≠ 0 then MUCMD_FREE m.allocator w m.cmds else w) = w2 at h hw2
    obtain ⟨ht2, hn2⟩ := hw2 w2 rfl
    cases ha : (m.allocator.alloc w2.ctx (k * sizeof_command)).1 with
    | none =>
      obtain ⟨w3, h3, -, hn3, -, ht3⟩ := alloc_fail m.allocator w2 _ ha
      rw [h3] at h
      simp only [if_true] at h
      injection h with h
      injection h with h1 h2
      injection h2 with h2 h3
      subst h1 h2 h3
      exact ⟨rfl, k * sizeof_command, by rw [ht3, ht2], Or.inl ⟨rfl, by rw [hn3, hn2]⟩⟩
    | some j =>
      obtain ⟨junk, w3, h3, -, hn3, -, ht3⟩ :=
        alloc_ok m.allocator w2 (k * sizeof_command) (by rw [ha]; exact Option.some_ne_none j)
      rw [h3] at h
      simp only [Nat.add_one_ne_zero, if_false] at h
      injection h with h
      injection h with h1 h2
      injection h2 with h2 h3
      subst h1 h2 h3
      refine ⟨rfl, k * sizeof_command, ?_, Or.inr ⟨by simp [hn2], by simp [memcpy_commands, hn3, hn2]⟩⟩
      simp [memcpy_commands, ht3, ht2, hn2]

theorem registrations_inv {κ : Type} (w0 : World κ) (regs : List (List mucmd_command)) :
    ∀ (m : mucmd κ) (w : World κ) (reqs : List (Nat × Nat)),
      (∀ cmds ∈ regs, ∃ c ∈ cmds, c.handler = 0) →
      w.trace ++ (if m.cmds ≠ 0 then [Event.free m.cmds] else []) =
        w0.trace ++ table_traffic reqs →
      (obtained (table_traffic reqs)).Nodup →
      (∀ q ∈ obtained (table_traffic reqs), q ≤ w.next) →
      ∃ m1 w1 reqs1, session.registrations m regs w = some (m1, w1) ∧
        m1.allocator = m.allocator ∧
        reqs1.length = reqs.length + regs.length ∧
        w1.trace ++ (if m1.cmds ≠ 0 then [Event.free m1.cmds] else []) =
          w0.trace ++ table_traffic reqs1 ∧
        (obtained (table_traffic reqs1)).Nodup := by
  induction regs with
  | nil =>
    intro m w reqs _ ht hnd _
    exact ⟨m, w, reqs, rfl, rfl, rfl, ht, hnd⟩
  | cons cmds rest ih =>
    intro m w reqs hsent ht hnd hle
    obtain ⟨k, hk⟩ := count_total cmds (hsent cmds (List.mem_cons_self _ _)) 0
    have hsome : ∃ r, mucmd_set_commands m cmds w = some r := by
      unfold mucmd_set_commands
      rw [hk]
      simp only
      generalize MUCMD_ALLOC m.allocator
        (if m.cmds ≠ 0 then MUCMD_FREE m.allocator w m.cmds else w) (k * sizeof_command) = r
      obtain ⟨p, junk, w2⟩ := r
      simp only
      split <;> exact ⟨_, rfl⟩
    obtain ⟨⟨res, m1, w1⟩, hcall⟩ := hsome
    obtain ⟨ha, s, htr, hcase⟩ := set_commands_trace m cmds w res m1 w1 hcall
    have ht1 : w1.trace ++ (if m1.cmds ≠ 0 then [Event.free m1.cmds] else []) =
        w0.trace ++ table_traffic (reqs ++ [(s, m1.cmds)]) := by
      rw [table_traffic_snoc, htr, ht]
      by_cases h0 : m1.cmds = 0 <;> simp [h0]
    have hnd1 : (obtained (table_traffic (reqs ++ [(s, m1.cmds)]))).Nodup := by
      rw [obtained_traffic_snoc]
      rcases hcase with ⟨h0, _⟩ | ⟨h1, _⟩
      · simpa [h0] using hnd
      · rw [if_neg (by omega)]
        refine List.Nodup.append hnd (List.nodup_singleton _) ?_
        intro q hq hq1
        have := hle q hq
        simp at hq1
        omega
    have hle1 : ∀ q ∈ obtained (table_traffic (reqs ++ [(s, m1.cmds)])), q ≤ w1.next := by
      intro q hq
      rw [obtained_traffic_snoc, List.mem_append] at hq
      rcases hcase with ⟨h0, hn⟩ | ⟨h1, hn⟩
      · rcases hq with hq | hq
        · rw [hn]; exact hle q hq
        · simp [h0] at hq
      · rcases hq with hq | hq
        · have := hle q hq; omega
        · rw [if_neg (by omega)] at hq
          simp at hq
          omega
    obtain ⟨m2, w2, reqs2, hrun, ha2, hlen, ht2, hnd2⟩ :=
      ih m1 w1 (reqs ++ [(s, m1.cmds)])
        (fun c hc => hsent c (List.mem_cons_of_mem _ hc)) ht1 hnd1 hle1
    refine ⟨m2, w2, reqs2, ?_, ha2.trans ha, ?_, ht2, hnd2⟩
    · simp only [session.registrations, hcall, hrun]
    · rw [hlen]; simp; omega

theorem obtained_eq_released_traffic (reqs : List (Nat × Nat)) :
    released (table_traffic reqs) = obtained (table_traffic reqs) := by
  induction reqs using List.reverseRecOn with
  | nil => rfl
  | append_singleton rs r ih =>
    obtain ⟨s, p⟩ := r
    rw [released_traffic_snoc, obtained_traffic_snoc, ih]

/-- Claim C7: in a session `mucmd_init`, any registrations (each on a
sentinel-terminated array, succeeding or failing at allocation), `mucmd_deinit`,
the allocator calls are one request per registration, each block obtained
being passed to release right after it (by the next registration, before its
own request, or by `mucmd_deinit`); the blocks released are the blocks
obtained, in the same order, and no block occurs twice. -/
theorem table_blocks_released_once {κ : Type} (allocator : mucmd_allocator κ)
    (regs : List (List mucmd_command)) (w0 : World κ)
    (hsent : ∀ cmds ∈ regs, ∃ c ∈ cmds, c.handler = 0) :
    ∃ w reqs, session allocator regs w0 = some w ∧
      reqs.length = regs.length ∧
      w.trace = w0.trace ++ table_traffic reqs ∧
      released (table_traffic reqs) = obtained (table_traffic reqs) ∧
      (obtained (table_traffic reqs)).Nodup := by
  obtain ⟨m1, w1, reqs, hrun, -, hlen, ht, hnd⟩ :=
    registrations_inv w0 regs (mucmd_init allocator) w0 [] hsent
      (by simp [mucmd_init, table_traffic]) (by simp [table_traffic, obtained])
      (by simp [table_traffic, obtained])
  refine ⟨(mucmd_deinit m1 w1).2, reqs, ?_, by simpa using hlen, ?_,
    obtained_eq_released_traffic reqs, hnd⟩
  · simp only [session, hrun]
  · rw [← ht]
    by_cases h0 : m1.cmds = 0 <;> simp [mucmd_deinit, h0, MUCMD_FREE]

/-- A successful registration leaves the state `registered` describes, with a
table block the allocator handed out. -/
theorem set_commands_registered {κ : Type} (m : mucmd κ) (w : World κ)
    (es : List mucmd_command) (s : mucmd_command) (rest : List mucmd_command)
    (hes : ∀ c ∈ es, c.handler ≠ 0) (hs : s.handler = 0)
    (halloc : ∀ c n, (m.allocator.alloc c n).1 ≠ none) :
    ∃ m1 w1, mucmd_set_commands m (es ++ s :: rest) w = some (0, m1, w1) ∧
      registered w1 m1 es ∧ m1.cmds ≤ w1.next ∧ m1.allocator = m.allocator := by
  obtain ⟨m1, w1, hcall, -, hnum, hheap⟩ :=
    set_commands_ok m w es s rest hes hs halloc
  obtain ⟨ha, sz, -, hcase⟩ := set_commands_trace m _ w 0 m1 w1 hcall
  refine ⟨m1, w1, hcall, ⟨hnum, hes, hheap⟩, ?_, ha⟩
  rcases hcase with ⟨h0, _⟩ | ⟨h1, h2⟩
  · rw [h0]; exact Nat.zero_le _
  · rw [h1, h2]

/-! ### The tokens of a line -/

theorem toks_nil : line_tokens [] = [] := by decide

theorem splitOnP_filter_delim (d : Char) (l : List Char) (hd : is_delim d = true) :
    ((d :: l).splitOnP is_delim).filter (fun t => !t.isEmpty) =
      (l.splitOnP is_delim).filter (fun t => !t.isEmpty) := by
  rw [List.splitOnP_cons, if_pos hd]
  rfl

theorem splitOnP_filter_delims (ds l : List Char) (hds : ∀ c ∈ ds, is_delim c = true) :
    ((ds ++ l).splitOnP is_delim).filter (fun t => !t.isEmpty) =
      (l.splitOnP is_delim).filter (fun t => !t.isEmpty) := by
  induction ds with
  | nil => rfl
  | cons d ds ih =>
    rw [List.cons_append, splitOnP_filter_delim _ _ (hds d (List.mem_cons_self _ _))]
    exact ih (fun c hc => hds c (List.mem_cons_of_mem _ hc))

theorem splitOnP_filter_token (tk l : List Char) (d : Char) (hne : tk ≠ [])
    (htk : ∀ c ∈ tk, ¬ is_delim c = true) (hd : is_delim d = true) :
    ((tk ++ d :: l).splitOnP is_delim).filter (fun t => !t.isEmpty) =
      tk :: (l.splitOnP is_delim).filter (fun t => !t.isEmpty) := by
  rw [List.splitOnP_first is_delim tk htk d hd l]
  cases tk with
  | nil => exact absurd rfl hne
  | cons a t => rfl

theorem splitOnP_filter_single (tk : List Char) (hne : tk ≠ [])
    (htk : ∀ c ∈ tk, ¬ is_delim c = true) :
    (tk.splitOnP is_delim).filter (fun t => !t.isEmpty) = [tk] := by
  rw [List.splitOnP_eq_single is_delim tk htk]
  cases tk with
  | nil => exact absurd rfl hne
  | cons a t => rfl

/-! ### C strings -/

theorem c_str_append (xs l : List Char) (hxs : ∀ c ∈ xs, c ≠ NUL) :
    c_str (xs ++ l) = xs ++ c_str l := by
  unfold c_str
  exact List.takeWhile_append_of_pos (fun c hc => by simpa using hxs c hc)

theorem c_str_headD (l : List Char) (h : l.headD NUL = NUL) : c_str l = [] := by
  cases l with
  | nil => rfl
  | cons a s =>
    simp only [List.headD_cons] at h
    rw [c_str_cons, if_pos h]

theorem c_str_set (l : List Char) (e : Nat) (h : (c_str l).length ≤ e) :
    c_str (l.set e NUL) = c_str l := by
  induction l generalizing e with
  | nil => rfl
  | cons a s ih =>
    by_cases ha : a = NUL
    · cases e with
      | zero => rw [List.set_cons_zero, ha]
      | succ e => rw [List.set_cons_succ, c_str_cons, c_str_cons, if_pos ha, if_pos ha]
    · rw [c_str_cons, if_neg ha] at h
      cases e with
      | zero => simp at h
      | succ e =>
        rw [List.set_cons_succ, c_str_cons, c_str_cons, if_neg ha, if_neg ha,
          ih e (by simpa using h)]

theorem c_str_at_set (buf : List Char) (o e : Nat) (h : o + (c_str_at buf o).length ≤ e) :
    c_str_at (buf.set e NUL) o = c_str_at buf o := by
  unfold c_str_at at h ⊢
  rw [List.drop_set, if_neg (by omega)]
  exact c_str_set _ _ (by omega)

/-! ### What `strtok` computes -/

theorem getD_drop (buf : List Char) (s k : Nat) (d : Char) :
    buf.getD (s + k) d = (buf.drop s).getD k d := by
  simp [List.getD_eq_getElem?_getD, List.getElem?_drop]

theorem getD_takeWhile_length (p : Char → Bool) (l : List Char) (d : Char) :
    l.getD (l.takeWhile p).length d = (l.dropWhile p).headD d := by
  induction l with
  | nil => rfl
  | cons a s ih =>
    by_cases h : p a = true
    · rw [List.takeWhile_cons_of_pos h, List.dropWhile_cons_of_pos h, List.length_cons,
        List.getD_cons_succ, ih]
    · rw [List.takeWhile_cons_of_neg h, List.dropWhile_cons_of_neg h]
      rfl

theorem drop_takeWhile_length (p : Char → Bool) (l : List Char) :
    l.drop (l.takeWhile p).length = l.dropWhile p := by
  induction l with
  | nil => rfl
  | cons a s ih =>
    by_cases h : p a = true
    · simp [List.takeWhile_cons, List.dropWhile_cons, h, ih]
    · simp [List.takeWhile_cons, List.dropWhile_cons, h]

theorem strtok_eq (buf : List Char) (sv : Nat) (s : Option Nat) (delim : List Char) :
    strtok buf sv s delim =
      (let rem := buf.drop (s.getD sv)
       let ds := rem.takeWhile (fun c => c != NUL && delim.contains c)
       let r1 := rem.dropWhile (fun c => c != NUL && delim.contains c)
       let tk := r1.takeWhile (fun c => c != NUL && !delim.contains c)
       let r2 := r1.dropWhile (fun c => c != NUL && !delim.contains c)
       if r1.headD NUL = NUL then (none, buf, s.getD sv + ds.length)
       else if r2.headD NUL = NUL then
         (some (s.getD sv + ds.length), buf, s.getD sv + ds.length + tk.length)
       else
         (some (s.getD sv + ds.length), buf.set (s.getD sv + ds.length + tk.length) NUL,
           s.getD sv + ds.length + tk.length + 1)) := by
  unfold strtok strspn strcspn
  simp only
  rw [getD_drop, getD_takeWhile_length, getD_drop, ← List.drop_drop, drop_takeWhile_length,
    getD_takeWhile_length]

/-! ### `strtok` on the delimiters of the interpreter -/

theorem parsing_delim_eq : parsing_delim = [Char.ofNat 32, Char.ofNat 10] := by decide

theorem contains_delim (c : Char) : parsing_delim.contains c = is_delim c := by
  rw [parsing_delim_eq]
  unfold is_delim
  simp only [List.contains, List.elem]
  cases (c == Char.ofNat 32) <;> cases (c == Char.ofNat 10) <;> rfl

theorem is_delim_ne_NUL (c : Char) (h : is_delim c = true) : c ≠ NUL := by
  intro h0
  rw [h0] at h
  exact absurd h (by decide)

theorem line_tokens_delims (ds l : List Char) (hds : ∀ c ∈ ds, is_delim c = true) :
    line_tokens (ds ++ l) = line_tokens l := by
  unfold line_tokens
  rw [c_str_append ds l (fun c hc => is_delim_ne_NUL c (hds c hc))]
  exact splitOnP_filter_delims _ _ hds

theorem line_tokens_end (l : List Char) (h : l.headD NUL = NUL) : line_tokens l = [] := by
  unfold line_tokens
  rw [c_str_headD l h]
  rfl

theorem headD_dropWhile (p : Char → Bool) (l : List Char) (h : (l.dropWhile p).headD NUL ≠ NUL) :
    ∃ a r, l.dropWhile p = a :: r ∧ p a = false ∧ a ≠ NUL := by
  cases hr : l.dropWhile p with
  | nil => rw [hr] at h; exact absurd rfl h
  | cons a r =>
    rw [hr] at h
    refine ⟨a, r, rfl, ?_, h⟩
    have := List.head_dropWhile_not p l (by rw [hr]; exact List.cons_ne_nil _ _)
    simpa [hr] using this

theorem strtok_cases (buf : List Char) (sv : Nat) (s : Option Nat) :
    (line_tokens (buf.drop (s.getD sv)) = [] ∧
      ∃ sv1, strtok buf sv s parsing_delim = (none, buf, sv1)) ∨
    (∃ t b buf1 sv1, strtok buf sv s parsing_delim = (some b, buf1, sv1) ∧
      line_tokens (buf.drop (s.getD sv)) = t :: line_tokens (buf1.drop sv1) ∧
      t ≠ [] ∧ s.getD sv ≤ b ∧ b + t.length ≤ sv1 ∧ sv1 ≤ buf.length ∧
      buf1.length = buf.length ∧ c_str_at buf1 b = t ∧
      ∀ o, o + (c_str_at buf o).length ≤ s.getD sv → c_str_at buf1 o = c_str_at buf o) := by
  rw [strtok_eq]
  dsimp only
  generalize s.getD sv = s0
  generalize hrem : buf.drop s0 = rem
  have hds : ∀ c ∈ rem.takeWhile (fun c => c != NUL && parsing_delim.contains c),
      is_delim c = true := by
    intro c hc
    have := List.mem_takeWhile_imp hc
    rw [contains_delim] at this
    simp only [Bool.and_eq_true] at this
    exact this.2
  have hsplit1 := List.takeWhile_append_dropWhile
    (fun c => c != NUL && parsing_delim.contains c) rem
  generalize rem.takeWhile (fun c => c != NUL && parsing_delim.contains c) = ds at hds hsplit1 ⊢
  generalize hr1 : rem.dropWhile (fun c => c != NUL && parsing_delim.contains c) = r1 at hsplit1 ⊢
  by_cases h1 : r1.headD NUL = NUL
  · left
    rw [if_pos h1]
    refine ⟨?_, _, rfl⟩
    rw [← hsplit1, line_tokens_delims ds r1 hds]
    exact line_tokens_end r1 h1
  · right
    rw [if_neg h1]
    obtain ⟨a, r, har, hpa, haN⟩ := headD_dropWhile _ rem (by rw [hr1]; exact h1)
    rw [hr1] at har
    have hta : (fun c => c != NUL && !parsing_delim.contains c) a = true := by
      simp only [Bool.and_eq_true, Bool.not_eq_true', bne_iff_ne, ne_eq] at hpa ⊢
      simp only [Bool.and_eq_false_iff, bne_eq_false_iff_eq] at hpa
      rcases hpa with hpa | hpa
      · exact absurd hpa haN
      · exact ⟨haN, hpa⟩
    have htk : ∀ c ∈ r1.takeWhile (fun c => c != NUL && !parsing_delim.contains c),
        c ≠ NUL ∧ ¬ is_delim c = true := by
      intro c hc
      have := List.mem_takeWhile_imp hc
      rw [contains_delim] at this
      simp only [Bool.and_eq_true, bne_iff_ne, ne_eq, Bool.not_eq_true'] at this
      exact ⟨this.1, by rw [this.2]; decide⟩
    have hne : r1.takeWhile (fun c => c != NUL && !parsing_delim.contains c) ≠ [] := by
      rw [har]
      intro hnil
      have := List.takeWhile_cons_of_pos
        (p := fun c => c != NUL && !parsing_delim.contains c) (l := r) hta
      rw [this] at hnil
      cases hnil
    have hsplit2 := List.takeWhile_append_dropWhile
      (fun c => c != NUL && !parsing_delim.contains c) r1
    generalize r1.takeWhile (fun c => c != NUL && !parsing_delim.contains c) = tk
      at htk hne hsplit2 ⊢
    generalize hr2 : r1.dropWhile (fun c => c != NUL && !parsing_delim.contains c) = r2
      at hsplit2 ⊢
    have hlen : s0 + ds.length + tk.length + r2.length = buf.length ∧ s0 ≤ buf.length := by
      have h3 : rem.length = buf.length - s0 := by rw [← hrem, List.length_drop]
      rw [← hsplit1, ← hsplit2] at h3
      simp only [List.length_append] at h3
      have : 0 < tk.length := List.length_pos.mpr hne
      omega
    have hdropb : buf.drop (s0 + ds.length) = tk ++ r2 := by
      rw [← List.drop_drop, hrem, ← hsplit1, List.drop_left, hsplit2]
    have hdrope : buf.drop (s0 + ds.length + tk.length) = r2 := by
      rw [← List.drop_drop, hdropb, List.drop_left]
    by_cases h2 : r2.headD NUL = NUL
    · rw [if_pos h2]
      refine ⟨tk, _, _, _, rfl, ?_, hne, by omega, le_refl _, by omega, rfl, ?_, fun _ _ => rfl⟩
      · rw [hdrope, line_tokens_end r2 h2, ← hsplit1, line_tokens_delims ds r1 hds, ← hsplit2]
        unfold line_tokens
        rw [c_str_append tk r2 (fun c hc => (htk c hc).1), c_str_headD r2 h2, List.append_nil]
        exact splitOnP_filter_single tk hne (fun c hc => (htk c hc).2)
      · unfold c_str_at
        rw [hdropb, c_str_append tk r2 (fun c hc => (htk c hc).1), c_str_headD r2 h2,
          List.append_nil]
    · rw [if_neg h2]
      obtain ⟨d, r3, hdr, hpd, hdN⟩ := headD_dropWhile _ r1 (by rw [hr2]; exact h2)
      rw [hr2] at hdr
      have hdd : is_delim d = true := by
        rw [contains_delim] at hpd
        simp only [Bool.and_eq_false_iff, bne_eq_false_iff_eq, Bool.not_eq_false'] at hpd
        rcases hpd with hpd | hpd
        · exact absurd hpd hdN
        · exact hpd
      have hr2len : r2.length = r3.length + 1 := by rw [hdr]; rfl
      have hdrop3 : (buf.set (s0 + ds.length + tk.length) NUL).drop
          (s0 + ds.length + tk.length + 1) = r3 := by
        rw [List.drop_set_of_lt NUL buf (Nat.lt_succ_self _)]
        show List.drop (s0 + ds.length + tk.length + 1) buf = r3
        rw [← List.drop_drop, hdrope, hdr]
        rfl
      refine ⟨tk, _, _, _, rfl, ?_, hne, by omega, by omega, by omega, List.length_set _ _ _,
        ?_, ?_⟩
      · rw [hdrop3, ← hsplit1, line_tokens_delims ds r1 hds, ← hsplit2, hdr]
        unfold line_tokens
        rw [c_str_append tk _ (fun c hc => (htk c hc).1), c_str_cons, if_neg hdN]
        exact splitOnP_filter_token tk _ d hne (fun c hc => (htk c hc).2) hdd
      · unfold c_str_at
        rw [List.drop_set, if_neg (by omega), hdropb, hdr, List.set_append,
          if_neg (by omega)]
        have : s0 + ds.length + tk.length - (s0 + ds.length) - tk.length = 0 := by omega
        rw [this, List.set_cons_zero, c_str_append tk _ (fun c hc => (htk c hc).1), c_str_cons,
          if_pos rfl, List.append_nil]
      · intro o ho
        exact c_str_at_set buf o _ (by omega)

/-! ### Lines without a token -/

theorem loop_ne_null {κ : Type} (fuel : Nat) :
    ∀ (input : List Char) (w : World κ) (command : mucmd_parsed_command κ) (capacity : Nat),
      (mucmd_parsed_command_create.loop fuel input w command capacity).outcome ≠
        parse_outcome.null := by
  induction fuel with
  | zero => intro input w command capacity h; simp [mucmd_parsed_command_create.loop] at h
  | succ fuel ih =>
    intro input w command capacity
    unfold mucmd_parsed_command_create.loop
    obtain ⟨tok, buf1, sv1⟩ := strtok input w.save none parsing_delim
    cases tok with
    | none => intro h; simp at h
    | some arg =>
      simp only
      obtain ⟨ok, w1⟩ := store_arg { w with save := sv1 } command.argv command.argc.toNat arg
      cases ok with
      | false => intro h; simp at h
      | true =>
        simp only
        split
        · exact ih _ _ _ _
        · exact ih _ _ _ _

theorem line_tokens_blank (line : List Char)
    (h : ∀ c ∈ line, c = Char.ofNat 32 ∨ c = Char.ofNat 10) : line_tokens line = [] := by
  have := line_tokens_delims line [] (fun c hc => by
    rcases h c hc with h | h <;> rw [h] <;> decide)
  rw [List.append_nil] at this
  rw [this]
  exact toks_nil

/-- Claim C2: on a line made only of spaces and newlines (the empty line
included) `mucmd_parsed_command_create` returns `NULL`, whatever the allocator
does; and when every allocate succeeds it returns `NULL` only if the line has
no token. -/
theorem blank_line_gives_no_command {κ : Type} (allocator : mucmd_allocator κ) (w : World κ)
    (line : List Char) :
    ((∀ c ∈ line, c = Char.ofNat 32 ∨ c = Char.ofNat 10) →
      (mucmd_parsed_command_create line allocator w).outcome = parse_outcome.null) ∧
    ((∀ c n, (allocator.alloc c n).1 ≠ none) →
      (mucmd_parsed_command_create line allocator w).outcome = parse_outcome.null →
      line_tokens line = []) := by
  constructor
  · intro hblank
    have htoks := line_tokens_blank line hblank
    unfold mucmd_parsed_command_create
    obtain ⟨p, junk, w1⟩ := MUCMD_ALLOC allocator w sizeof_parsed_command
    simp only
    split
    · rfl
    · rcases strtok_cases line w1.save (some 0) with ⟨-, sv1, hs⟩ | ⟨t, b, buf1, sv1, -, ht, -⟩
      · rw [hs]
      · rw [Option.getD_some, List.drop_zero, htoks] at ht
        cases ht
  · intro halloc hnull
    unfold mucmd_parsed_command_create at hnull
    obtain ⟨junk, w1, h1, -⟩ := alloc_ok allocator w sizeof_parsed_command (halloc _ _)
    rw [h1] at hnull
    simp only [Nat.add_one_ne_zero, if_false] at hnull
    rcases strtok_cases line w1.save (some 0) with ⟨ht, -⟩ | ⟨t, b, buf1, sv1, hs, -⟩
    · simpa using ht
    · rw [hs] at hnull
      simp only at hnull
      obtain ⟨junk2, w2, h2, -⟩ :=
        alloc_ok allocator { w1 with save := sv1 } (16 * sizeof_char_ptr) (halloc _ _)
      rw [h2] at hnull
      simp only [Nat.add_one_ne_zero, if_false] at hnull
      exact absurd hnull (loop_ne_null _ _ _ _ _)

/-! ### The loop at the end of input -/

theorem iter_end_of_input {κ : Type} (hs : Nat → Int → Option (List (List Char)) → Int)
    (m : mucmd κ) (line : Option (List Char)) (w : World κ) :
    ∃ w1, mucmd_run.iter hs m line ⟨-1, []⟩ w = iter_outcome.next [] w1 ∧
      w1.trace.count (Event.stdout MUCMD_PROMPT) =
        w.trace.count (Event.stdout MUCMD_PROMPT) + 1 := by
  have hexit : mucmd_exit [] = false := by decide
  have hinfo : mucmd_info [] = false := by decide
  have hp : ∀ s, Event.stderr s ≠ Event.stdout MUCMD_PROMPT := by intro s h; cases h
  unfold mucmd_run.iter
  simp only [hexit, hinfo, Bool.false_eq_true, if_false]
  unfold mucmd_parsed_command_create MUCMD_ALLOC
  obtain ⟨o, c⟩ := m.allocator.alloc _ sizeof_parsed_command
  cases o with
  | none =>
    refine ⟨_, rfl, ?_⟩
    cases line <;>
      simp [World.emit, mucmd_parsed_command_destroy, List.count_append, List.count_cons,
        List.count_nil]
  | some junk =>
    simp only [Nat.add_one_ne_zero, if_false]
    have hs0 : ∀ sv, strtok [] sv (some 0) parsing_delim = (none, [], 0) := fun _ => rfl
    rw [hs0]
    refine ⟨_, rfl, ?_⟩
    by_cases hj : int_field (junk 1) > 0 <;> cases line <;>
      simp [World.emit, mucmd_parsed_command_destroy, MUCMD_FREE, hj, List.count_append,
        List.count_cons, List.count_nil]

theorem loop_end_of_input {κ : Type} (hs : Nat → Int → Option (List (List Char)) → Int)
    (m : mucmd κ) (n : Nat) :
    ∀ (line : Option (List Char)) (w : World κ),
      ∃ line1 w1, mucmd_run.loop hs m (List.replicate n ⟨-1, []⟩) line w =
          run_outcome.reading line1 w1 ∧
        w1.trace.count (Event.stdout MUCMD_PROMPT) =
          w.trace.count (Event.stdout MUCMD_PROMPT) + n := by
  induction n with
  | zero => intro line w; exact ⟨line, w, rfl, rfl⟩
  | succ n ih =>
    intro line w
    obtain ⟨w1, h1, hc1⟩ := iter_end_of_input hs m line w
    obtain ⟨line2, w2, h2, hc2⟩ := ih (some []) w1
    refine ⟨line2, w2, ?_, by rw [hc2, hc1]; omega⟩
    rw [List.replicate_succ]
    simp only [mucmd_run.loop, h1]
    exact h2

/-- Claim C9, at a failing input: the input is at its end from the start, so
every `getline` returns `-1` and leaves an empty string in the buffer.  After
any number `n` of such reads `mucmd_run` has not returned: it is at the top of
the loop again and has written `n` further prompts. -/
theorem end_of_input_does_not_stop {κ : Type}
    (hs : Nat → Int → Option (List (List Char)) → Int) (m : mucmd κ) (w : World κ) (n : Nat) :
    ∃ line w1, mucmd_run hs m (List.replicate n ⟨-1, []⟩) w = run_outcome.reading line w1 ∧
      w1.trace.count (Event.stdout MUCMD_PROMPT) =
        w.trace.count (Event.stdout MUCMD_PROMPT) + n := by
  obtain ⟨line1, w1, h1, hc⟩ := loop_end_of_input hs m n none (w.emit (Event.stdout banner))
  refine ⟨line1, w1, h1, ?_⟩
  rw [hc]
  have : banner ≠ MUCMD_PROMPT := by decide
  simp [World.emit, List.count_append, List.count_cons, this]

/-! ### The tokenizer never runs out of steps -/

theorem store_arg_save {κ : Type} (w : World κ) (ptr idx tok : Nat) :
    (store_arg w ptr idx tok).2.save = w.save := by
  unfold store_arg
  cases w.heap ptr with
  | none => rfl
  | some b =>
    obtain ⟨size, content⟩ := b
    simp only
    split <;> rfl

theorem realloc_save {κ : Type} (a : mucmd_allocator κ) (w : World κ) (ptr size : Nat) :
    (MUCMD_REALLOC a w ptr size).2.save = w.save := by
  unfold MUCMD_REALLOC
  obtain ⟨r, c⟩ := a.realloc w.ctx ptr size
  cases r <;> rfl

theorem loop_not_exhausted {κ : Type} (fuel : Nat) :
    ∀ (input : List Char) (w : World κ) (command : mucmd_parsed_command κ) (capacity : Nat),
      w.save ≤ input.length → input.length < fuel + w.save →
      (mucmd_parsed_command_create.loop fuel input w command capacity).outcome ≠
        parse_outcome.exhausted := by
  induction fuel with
  | zero => intro input w command capacity h1 h2; omega
  | succ fuel ih =>
    intro input w command capacity hsv hfuel
    unfold mucmd_parsed_command_create.loop
    rcases strtok_cases input w.save none with ⟨-, sv1, hs⟩ |
      ⟨t, b, buf1, sv1, hs, -, hne, hb, hbt, hle, hlen, -, -⟩
    · rw [hs]; intro h; simp at h
    · rw [hs]
      simp only
      have ht : 0 < t.length := List.length_pos.mpr hne
      have hb2 : w.save ≤ b := hb
      have hsave := store_arg_save { w with save := sv1 } command.argv command.argc.toNat b
      generalize store_arg { w with save := sv1 } command.argv command.argc.toNat b = r
        at hsave ⊢
      obtain ⟨ok, w1⟩ := r
      simp only at hsave
      cases ok with
      | false => intro h; simp at h
      | true =>
        simp only
        split
        · apply ih
          · rw [realloc_save, hsave, hlen]; exact hle
          · rw [realloc_save, hsave, hlen]; omega
        · apply ih
          · rw [hsave, hlen]; exact hle
          · rw [hsave, hlen]; omega

/-- The loop of the embedding always has steps left: whatever the line, the
allocator and the world, `mucmd_parsed_command_create` ends by itself. -/
theorem create_not_exhausted {κ : Type} (input : List Char) (allocator : mucmd_allocator κ)
    (w : World κ) :
    (mucmd_parsed_command_create input allocator w).outcome ≠ parse_outcome.exhausted := by
  unfold mucmd_parsed_command_create
  obtain ⟨p, junk, w1⟩ := MUCMD_ALLOC allocator w sizeof_parsed_command
  simp only
  split
  · intro h; simp at h
  · rcases strtok_cases input w1.save (some 0) with ⟨-, sv1, hs⟩ |
      ⟨t, b, buf1, sv1, hs, -, hne, hb, hbt, hle, hlen, -, -⟩
    · rw [hs]; intro h; simp at h
    · rw [hs]
      simp only
      have ht : 0 < t.length := List.length_pos.mpr hne
      have hsave : (MUCMD_ALLOC allocator { w1 with save := sv1 } (16 * sizeof_char_ptr)).2.2.save
          = sv1 := by
        unfold MUCMD_ALLOC
        obtain ⟨o, c⟩ := allocator.alloc _ (16 * sizeof_char_ptr)
        cases o <;> rfl
      generalize MUCMD_ALLOC allocator { w1 with save := sv1 } (16 * sizeof_char_ptr) = r
        at hsave ⊢
      obtain ⟨q, junk2, w2⟩ := r
      simp only at hsave ⊢
      split
      · intro h; simp at h
      · apply loop_not_exhausted
        · rw [hsave, hlen]; exact hle
        · rw [hsave]; omega

/-! ### The tokenizer with an allocator that resizes in place -/

theorem realloc_same {κ : Type} (a : mucmd_allocator κ)
    (hsame : ∀ c p n, (a.realloc c p n).1 = realloc_reply.same) (w : World κ) (ptr size : Nat) :
    (MUCMD_REALLOC a w ptr size).2.heap =
      Function.update w.heap ptr ((w.heap ptr).map (fun b => { b with size := size })) := by
  unfold MUCMD_REALLOC
  have h := hsame w.ctx ptr size
  generalize a.realloc w.ctx ptr size = rc at h
  obtain ⟨r, c⟩ := rc
  simp only at h
  subst h
  rfl

theorem store_arg_ok {κ : Type} (w : World κ) (ptr idx tok size : Nat) (content : Content)
    (hheap : w.heap ptr = some ⟨size, content⟩) (hfit : (idx + 1) * sizeof_char_ptr ≤ size) :
    ∃ w1, store_arg w ptr idx tok = (true, w1) ∧ w1.save = w.save ∧
      w1.heap = Function.update w.heap ptr
        (some ⟨size, Content.argv (Function.update content.cells idx (some tok))⟩) := by
  unfold store_arg
  rw [hheap]
  simp only [if_pos hfit]
  exact ⟨_, rfl, rfl, rfl⟩

theorem read_args_congr (buf buf1 : List Char) (cells cells1 : Nat → Option Nat) (n : Nat)
    (hcells : ∀ i, i < n → cells1 i = cells i)
    (hbuf : ∀ i, i < n → ∀ o, cells i = some o → c_str_at buf1 o = c_str_at buf o) :
    read_args buf1 cells1 n = read_args buf cells n := by
  induction n with
  | zero => rfl
  | succ n ih =>
    unfold read_args
    rw [ih (fun i hi => hcells i (by omega)) (fun i hi => hbuf i (by omega)),
      hcells n (Nat.lt_succ_self n)]
    cases hc : cells n with
    | none => cases read_args buf cells n <;> rfl
    | some o =>
      cases read_args buf cells n with
      | none => rfl
      | some l => simp only [hbuf n (Nat.lt_succ_self n) o hc]

theorem loop_in_place {κ : Type} (a : mucmd_allocator κ)
    (hsame : ∀ c p n, (a.realloc c p n).1 = realloc_reply.same) (fuel : Nat) :
    ∀ (input : List Char) (w : World κ) (command : mucmd_parsed_command κ)
      (capacity n : Nat) (content : Content) (toks : List (List Char)) (nm : List Char),
      command.allocator = a → command.argc = (n : Int) → n < capacity →
      w.heap command.argv = some ⟨capacity * sizeof_char_ptr, content⟩ →
      read_args input content.cells n = some toks →
      (∀ i, i < n → ∀ o, content.cells i = some o →
        o + (c_str_at input o).length ≤ w.save) →
      c_str_at input command.name = nm → command.name + nm.length ≤ w.save →
      w.save ≤ input.length → input.length < fuel + w.save →
      ∃ buf1 w1,
        mucmd_parsed_command_create.loop fuel input w command capacity =
          ⟨parse_outcome.command
            { command with argc := ((n + (line_tokens (input.drop w.save)).length : Nat) : Int) },
            buf1, w1⟩ ∧
        c_str_at buf1 command.name = nm ∧
        argv_strings w1 buf1 command.argv
            ((n + (line_tokens (input.drop w.save)).length : Nat) : Int) =
          some (toks ++ line_tokens (input.drop w.save)) ∧
        ∀ x, x ≠ command.argv → w1.heap x = w.heap x := by
  induction fuel with
  | zero => intro input w command capacity n content toks nm _ _ _ _ _ _ _ _ h1 h2; omega
  | succ fuel ih =>
    intro input w command capacity n content toks nm hA hargc hcap hheap hread hbound hname
      hnamele hsv hfuel
    unfold mucmd_parsed_command_create.loop
    have htoNat : command.argc.toNat = n := by rw [hargc]; exact Int.toNat_natCast n
    rcases strtok_cases input w.save none with ⟨htok, sv1, hs⟩ |
      ⟨t, b, buf1, sv1, hs, htok, hne, hb, hbt, hle, hlen, htb, hpres⟩
    · rw [Option.getD_none] at htok
      rw [hs, htok]
      simp only [List.length_nil, Nat.add_zero, List.append_nil]
      refine ⟨input, (MUCMD_REALLOC command.allocator { w with save := sv1 } command.argv
        (command.argc.toNat * sizeof_char_ptr)).2, ?_, hname, ?_, ?_⟩
      · obtain ⟨self, name, argc, argv, alloc⟩ := command
        simp only at hargc
        subst hargc
        rfl
      · unfold argv_strings
        by_cases hn : n = 0
        · subst hn
          simp only [Nat.cast_zero, le_refl, if_true]
          simp only [read_args] at hread
          rw [← Option.some.inj hread]
        · have hpos : ¬ ((n : Int) ≤ 0) := by omega
          rw [if_neg hpos, hA, realloc_same a hsame]
          simp only [hheap, Function.update_same, Option.map_some', htoNat, Int.toNat_natCast,
            le_refl, if_true]
          exact hread
      · intro x hx
        rw [hA, realloc_same a hsame]
        exact Function.update_noteq hx _ _
    · rw [Option.getD_none] at htok hb hpres
      rw [hs]
      simp only
      obtain ⟨w2, hst, hsave2, hheap2⟩ := store_arg_ok { w with save := sv1 } command.argv
        command.argc.toNat b (capacity * sizeof_char_ptr) content hheap
        (by rw [htoNat]; exact Nat.mul_le_mul_right _ hcap)
      rw [hst]
      simp only at hsave2 hheap2 ⊢
      rw [htoNat] at hheap2
      have ht : 0 < t.length := List.length_pos.mpr hne
      have hread2 : read_args buf1 (Function.update content.cells n (some b)) (n + 1) =
          some (toks ++ [t]) := by
        unfold read_args
        rw [read_args_congr input buf1 content.cells _ n
          (fun i hi => Function.update_noteq (Nat.ne_of_lt hi) _ _)
          (fun i hi o ho => hpres o (hbound i hi o ho)), hread, Function.update_same]
        simp only [htb]
      have hbound2 : ∀ i, i < n + 1 → ∀ o, Function.update content.cells n (some b) i = some o →
          o + (c_str_at buf1 o).length ≤ sv1 := by
        intro i hi o ho
        by_cases hin : i = n
        · subst hin
          rw [Function.update_same] at ho
          cases ho
          rw [htb]; exact hbt
        · rw [Function.update_noteq hin] at ho
          have h1 := hbound i (by omega) o ho
          rw [hpres o h1]
          omega
      have hname2 : c_str_at buf1 command.name = nm := by
        rw [hpres command.name (by rw [hname]; exact hnamele)]; exact hname
      have hfin : ∀ (w3 : World κ) (cap3 : Nat), w3.save = sv1 → n + 1 < cap3 →
          w3.heap command.argv = some ⟨cap3 * sizeof_char_ptr,
            Content.argv (Function.update content.cells n (some b))⟩ →
          (∀ x, x ≠ command.argv → w3.heap x = w.heap x) →
          ∃ buf2 w4,
            mucmd_parsed_command_create.loop fuel buf1 w3
                { command with argc := command.argc + 1 } cap3 =
              ⟨parse_outcome.command
                { command with
                  argc := ((n + (line_tokens (input.drop w.save)).length : Nat) : Int) },
                buf2, w4⟩ ∧
            c_str_at buf2 command.name = nm ∧
            argv_strings w4 buf2 command.argv
                ((n + (line_tokens (input.drop w.save)).length : Nat) : Int) =
              some (toks ++ line_tokens (input.drop w.save)) ∧
            ∀ x, x ≠ command.argv → w4.heap x = w.heap x := by
        intro w3 cap3 hsv3 hcap3 hheap3 hframe3
        obtain ⟨buf2, w4, hloop, hnm, hargs, hframe4⟩ := ih buf1 w3
          { command with argc := command.argc + 1 } cap3 (n + 1)
          (Content.argv (Function.update content.cells n (some b))) (toks ++ [t]) nm
          hA (by simp only [hargc]; omega) hcap3 hheap3 hread2
          (by rw [hsv3]; exact hbound2) hname2
          (by show command.name + nm.length ≤ w3.save; rw [hsv3]; omega)
          (by rw [hsv3, hlen]; exact hle)
          (by rw [hsv3, hlen]; omega)
        rw [hsv3] at hloop hargs
        have hcount : n + 1 + (line_tokens (buf1.drop sv1)).length =
            n + (line_tokens (input.drop w.save)).length := by
          rw [htok]; simp only [List.length_cons]; omega
        rw [hcount] at hloop hargs
        refine ⟨buf2, w4, hloop, hnm, ?_, fun x hx => (hframe4 x hx).trans (hframe3 x hx)⟩
        rw [hargs, htok, List.append_assoc]
        rfl
      split
      · rename_i heq
        have hcapeq : n + 1 = capacity := by rw [hargc] at heq; omega
        apply hfin
        · rw [realloc_save]; exact hsave2
        · rw [Nat.shiftLeft_eq]; omega
        · rw [hA, realloc_same a hsame, hheap2]
          simp only [Function.update_same, Option.map_some']
        · intro x hx
          rw [hA, realloc_same a hsame, hheap2, Function.update_noteq hx,
            Function.update_noteq hx]
      · rename_i hneq
        have hcapne : n + 1 ≠ capacity := by
          intro h; apply hneq; rw [hargc]; omega
        apply hfin
        · exact hsave2
        · omega
        · rw [hheap2]
          simp only [Function.update_same]
        · intro x hx
          rw [hheap2, Function.update_noteq hx]

/-- With an allocator whose calls all succeed and whose reallocate resizes in
place, `mucmd_parsed_command_create` on a line with tokens `name :: args`
returns a record whose name reads `name`, whose `argc` is the number of
arguments and through whose `argv` the arguments read in order. -/
theorem tokenizer_in_place {κ : Type} (a : mucmd_allocator κ)
    (hsame : ∀ c p n, (a.realloc c p n).1 = realloc_reply.same)
    (halloc : ∀ c n, (a.alloc c n).1 ≠ none) (line : List Char) (w : World κ)
    (name : List Char) (args : List (List Char)) (htoks : line_tokens line = name :: args) :
    ∃ c buf w1, mucmd_parsed_command_create line a w = ⟨parse_outcome.command c, buf, w1⟩ ∧
      c_str_at buf c.name = name ∧ c.argc = (args.length : Int) ∧
      argv_strings w1 buf c.argv c.argc = some args ∧
      c.allocator = a ∧ (∀ x, x ≤ w.next → w1.heap x = w.heap x) := by
  unfold mucmd_parsed_command_create
  obtain ⟨junk, w1, h1, hheap1, hnext1, -, -⟩ := alloc_ok a w sizeof_parsed_command (halloc _ _)
  rw [h1]
  simp only [Nat.add_one_ne_zero, if_false]
  rcases strtok_cases line w1.save (some 0) with ⟨ht, -⟩ |
    ⟨t, b, buf1, sv1, hs, htok, hne, hb, hbt, hle, hlen, htb, -⟩
  · rw [Option.getD_some, List.drop_zero, htoks] at ht
    cases ht
  · rw [Option.getD_some, List.drop_zero, htoks] at htok
    injection htok with hname hargs
    subst hname
    rw [hs]
    simp only
    obtain ⟨junk2, w2, h2, hheap2, -, hsave2, -⟩ :=
      alloc_ok a { w1 with save := sv1 } (16 * sizeof_char_ptr) (halloc _ _)
    rw [h2]
    simp only [Nat.add_one_ne_zero, if_false]
    obtain ⟨buf2, w3, hloop, hnm, hargv, hframe⟩ := loop_in_place a hsame (buf1.length + 1) buf1 w2
      ⟨w.next + 1, b, 0, w1.next + 1, a⟩ 16 0 Content.raw [] name rfl rfl (by decide)
      (by rw [hheap2]; simp only [Function.update_same])
      rfl (fun i hi => absurd hi (Nat.not_lt_zero i)) htb
      (by rw [hsave2]; exact hbt) (by rw [hsave2, hlen]; exact hle) (by omega)
    rw [hsave2] at hloop hargv
    simp only at hloop hargv
    rw [← hargs] at hloop hargv
    simp only [Nat.zero_add, List.nil_append] at hloop hargv
    refine ⟨_, buf2, w3, hloop, hnm, rfl, hargv, rfl, ?_⟩
    intro x hx
    have hx1 : x ≠ w1.next + 1 := by omega
    have hx2 : x ≠ w.next + 1 := by omega
    rw [hframe x hx1, hheap2]
    simp only
    rw [Function.update_noteq hx1, hheap1, Function.update_noteq hx2]

/-! ### Handler invocations -/

theorem calls_alloc {κ : Type} (a : mucmd_allocator κ) (w : World κ) (size : Nat) :
    handler_calls (MUCMD_ALLOC a w size).2.2.trace = handler_calls w.trace := by
  unfold MUCMD_ALLOC
  obtain ⟨o, c⟩ := a.alloc w.ctx size
  cases o <;> simp [handler_calls, List.filter_append]

theorem calls_realloc {κ : Type} (a : mucmd_allocator κ) (w : World κ) (ptr size : Nat) :
    handler_calls (MUCMD_REALLOC a w ptr size).2.trace = handler_calls w.trace := by
  unfold MUCMD_REALLOC
  obtain ⟨r, c⟩ := a.realloc w.ctx ptr size
  cases r <;> simp [handler_calls, List.filter_append]

theorem calls_free {κ : Type} (a : mucmd_allocator κ) (w : World κ) (ptr : Nat) :
    handler_calls (MUCMD_FREE a w ptr).trace = handler_calls w.trace := by
  simp [MUCMD_FREE, handler_calls, List.filter_append]

theorem calls_store {κ : Type} (w : World κ) (ptr idx tok : Nat) :
    handler_calls (store_arg w ptr idx tok).2.trace = handler_calls w.trace := by
  unfold store_arg
  cases w.heap ptr with
  | none => simp [World.emit, handler_calls, List.filter_append]
  | some b =>
    obtain ⟨size, content⟩ := b
    simp only
    split <;> simp [World.emit, handler_calls, List.filter_append]

theorem calls_destroy {κ : Type} (command : Option (mucmd_parsed_command κ)) (w : World κ) :
    handler_calls (mucmd_parsed_command_destroy command w).trace = handler_calls w.trace := by
  unfold mucmd_parsed_command_destroy
  cases command with
  | none => rfl
  | some c =>
    simp only
    rw [calls_free]
    split
    · rw [calls_free]
    · rfl

theorem calls_loop {κ : Type} (fuel : Nat) :
    ∀ (input : List Char) (w : World κ) (command : mucmd_parsed_command κ) (capacity : Nat),
      handler_calls (mucmd_parsed_command_create.loop fuel input w command capacity).world.trace =
        handler_calls w.trace := by
  induction fuel with
  | zero => intro input w command capacity; rfl
  | succ fuel ih =>
    intro input w command capacity
    unfold mucmd_parsed_command_create.loop
    obtain ⟨tok, buf1, sv1⟩ := strtok input w.save none parsing_delim
    cases tok with
    | none => simp only; rw [calls_realloc]
    | some arg =>
      simp only
      have hst := calls_store { w with save := sv1 } command.argv command.argc.toNat arg
      generalize store_arg { w with save := sv1 } command.argv command.argc.toNat arg = r at hst ⊢
      obtain ⟨ok, w1⟩ := r
      simp only at hst
      cases ok with
      | false => exact hst
      | true =>
        simp only
        split
        · rw [ih, calls_realloc, hst]
        · rw [ih, hst]

/-- The tokenizer invokes no handler. -/
theorem calls_create {κ : Type} (input : List Char) (allocator : mucmd_allocator κ)
    (w : World κ) :
    handler_calls (mucmd_parsed_command_create input allocator w).world.trace =
      handler_calls w.trace := by
  unfold mucmd_parsed_command_create
  have h1 := calls_alloc allocator w sizeof_parsed_command
  generalize MUCMD_ALLOC allocator w sizeof_parsed_command = r at h1 ⊢
  obtain ⟨p, junk, w1⟩ := r
  simp only at h1 ⊢
  split
  · rw [calls_destroy, h1]
  · obtain ⟨tok, buf1, sv1⟩ := strtok input w1.save (some 0) parsing_delim
    cases tok with
    | none => simp only; rw [calls_destroy]; exact h1
    | some name =>
      simp only
      have h2 := calls_alloc allocator { w1 with save := sv1 } (16 * sizeof_char_ptr)
      generalize MUCMD_ALLOC allocator { w1 with save := sv1 } (16 * sizeof_char_ptr) = r2
        at h2 ⊢
      obtain ⟨q, junk2, w2⟩ := r2
      simp only at h2 ⊢
      split
      · rw [calls_destroy, h2]; exact h1
      · rw [calls_loop, h2]; exact h1

/-- With an allocator whose calls all succeed and whose reallocate resizes in
place, a registered table `es` and a line that is no directive and whose first
token is the name of the entry `c`, the first of that name: the pass invokes
one handler, that of `c`, once, with `argc` the number of tokens after the
first and `argv` reading as those tokens in order. -/
theorem dispatch_in_place {κ : Type} (hs : Nat → Int → Option (List (List Char)) → Int)
    (a : mucmd_allocator κ) (hsame : ∀ c p n, (a.realloc c p n).1 = realloc_reply.same)
    (halloc : ∀ c n, (a.alloc c n).1 ≠ none) (m : mucmd κ) (hm : m.allocator = a)
    (w : World κ) (es : List mucmd_command) (hreg : registered w m es) (hold : m.cmds ≤ w.next)
    (line0 : Option (List Char)) (r : getline_result) (name : List Char)
    (args : List (List Char)) (htoks : line_tokens r.line = name :: args)
    (hexit : mucmd_exit r.line = false) (hinfo : mucmd_info r.line = false)
    (i : Nat) (c : mucmd_command) (hc : es[i]? = some c) (hmatch : c_str c.name = name)
    (hfirst : ∀ j d, j < i → es[j]? = some d → c_str d.name ≠ name) :
    ∃ buf w1 argv, mucmd_run.iter hs m line0 r w = iter_outcome.next buf w1 ∧
      handler_calls w1.trace =
        handler_calls w.trace ++ [Event.call c.handler args.length argv (some args)] := by
  unfold mucmd_run.iter
  simp only [hexit, hinfo, Bool.false_eq_true, if_false]
  generalize hw0 : ((if line0.isSome = true then w.emit Event.free_line else w).emit
    (Event.stdout MUCMD_PROMPT)).emit (Event.getline r.ret) = w0
  have hheap0 : w0.heap = w.heap := by rw [← hw0]; cases line0 <;> rfl
  have hnext0 : w0.next = w.next := by rw [← hw0]; cases line0 <;> rfl
  have hcalls0 : handler_calls w0.trace = handler_calls w.trace := by
    rw [← hw0]; cases line0 <;> simp [World.emit, handler_calls, List.filter_append]
  obtain ⟨cmd, buf, w1, hcreate, hnm, hargc, hargv, hA, hframe⟩ :=
    tokenizer_in_place a hsame halloc r.line w0 name args htoks
  have hcalls1 := calls_create r.line a w0
  rw [hm, hcreate]
  rw [hcreate] at hcalls1
  simp only at hcalls1 ⊢
  have hreg1 : registered w1 m es := by
    refine ⟨hreg.1, hreg.2.1, ?_⟩
    rw [hframe m.cmds (by rw [hnext0]; exact hold), hheap0]
    exact hreg.2.2
  have hq : c_str (buf.drop cmd.name) = name := hnm
  rw [(lookup_at_zero w1 m es hreg1 (buf.drop cmd.name)).1 i c hc
    (by rw [hq]; exact hmatch) (fun j d hj hd => by rw [hq]; exact hfirst j d hj hd)]
  simp only
  rw [if_neg (hreg.2.1 c (List.getElem?_mem hc))]
  refine ⟨buf, _, cmd.argv, rfl, ?_⟩
  rw [calls_destroy]
  simp only [World.emit, handler_calls, List.filter_append] at hcalls1 hcalls0 ⊢
  rw [hcalls1, hcalls0, hargv, hargc]
  rfl

/-! ### Failing inputs of the tokenizer and of the dispatch -/

/-- Claim C1, at failing inputs.  First: a line with a name and 17 arguments,
and an allocator whose calls all succeed, the reallocate returning a new block
when the array grows past 128 bytes.  When `argc` reaches 16 the array is
reallocated to 256 bytes and moves to block `3`, but `argv` stays block `2`:
the 17th argument is stored through the released block, which is undefined
behaviour, where the claim promises a record holding the 18 tokens.  Second:
the line `"c a\n"` (tokens `c` and `a`) with an allocator whose every
reallocate returns a new block: the record returned has `argc = 1` and `argv`
still block `2`, released by the last reallocation; nothing can be read through
it, and the argument is in block `3`, the pointer the code dropped. -/
theorem create_keeps_stale_argv :
    (line_tokens "c 1 2 3 4 5 6 7 8 9 10 11 12 13 14 15 16 17\n".toList).length = 18 ∧
    (mucmd_parsed_command_create "c 1 2 3 4 5 6 7 8 9 10 11 12 13 14 15 16 17\n".toList
      growing_allocator (World.init ())).outcome = parse_outcome.undefined ∧
    (mucmd_parsed_command_create "c 1 2 3 4 5 6 7 8 9 10 11 12 13 14 15 16 17\n".toList
      growing_allocator (World.init ())).trace.drop 18 =
        [Event.realloc 2 256 3, Event.store 2 16 41] ∧
    line_tokens "c a\n".toList = ["c".toList, "a".toList] ∧
    (∃ buf w, mucmd_parsed_command_create "c a\n".toList moving_allocator (World.init ()) =
        ⟨parse_outcome.command ⟨1, 0, 1, 2, moving_allocator⟩, buf, w⟩ ∧
      w.trace = [Event.alloc 56 1, Event.alloc 128 2, Event.store 2 0 2,
        Event.realloc 2 8 3] ∧
      (w.heap 2).isNone = true ∧ argv_strings w buf 2 1 = none ∧
      argv_strings w buf 3 1 = some ["a".toList]) :=
  ⟨by decide, rfl, by decide, by decide,
    ⟨_, _, rfl, by decide, by decide, by decide, by decide⟩⟩

/-- Claim C4, at failing inputs, with the table of `examples/main.c`.  First: the
line `sum` with 16 arguments and an allocator whose calls all succeed, the
reallocate returning a new block when the array grows past 128 bytes.  The
array moves to block `4` when `argc` reaches 16, `argv` stays block `3`, and
`sum_handler` is invoked with `argc = 16` and an `argv` through which no
argument can be read; block `3` is then released again and block `4` never.
Second: the line `"sum 2 3\n"` with an allocator whose every reallocate returns
a new block: `sum_handler` is invoked with `argc = 2` and `argv` naming the
block the last reallocation released, not with the arguments `2` and `3`. -/
theorem dispatch_passes_stale_argv :
    handler_calls (mucmd_run.iter zero_status (main_state growing_allocator ()).1 none
        ⟨46, "sum 1 2 3 4 5 6 7 8 9 10 11 12 13 14 15 16\n".toList⟩
        (main_state growing_allocator ()).2).trace =
      [Event.call sum_handler 16 3 none] ∧
    (mucmd_run.iter zero_status (main_state growing_allocator ()).1 none
        ⟨46, "sum 1 2 3 4 5 6 7 8 9 10 11 12 13 14 15 16\n".toList⟩
        (main_state growing_allocator ()).2).trace.drop 21 =
      [Event.realloc 3 256 4, Event.realloc 3 128 3, Event.call sum_handler 16 3 none,
        Event.free 3, Event.free 2] ∧
    (mucmd_run.iter zero_status (main_state moving_allocator ()).1 none
        ⟨8, "sum 2 3\n".toList⟩ (main_state moving_allocator ()).2).trace =
      [Event.alloc 48 1, Event.stdout MUCMD_PROMPT, Event.getline 8,
        Event.alloc 56 2, Event.alloc 128 3, Event.store 3 0 4, Event.store 3 1 6,
        Event.realloc 3 16 4, Event.call sum_handler 2 3 none, Event.free 3, Event.free 2] := by
  decide

/-! ### Handler statuses -/

theorem iter_ignores_status {κ : Type} (hs hs1 : Nat → Int → Option (List (List Char)) → Int)
    (m : mucmd κ) (line : Option (List Char)) (r : getline_result) (w : World κ) :
    mucmd_run.iter hs m line r w = mucmd_run.iter hs1 m line r w := rfl

theorem loop_ignores_status {κ : Type} (hs hs1 : Nat → Int → Option (List (List Char)) → Int)
    (m : mucmd κ) (input : List getline_result) :
    ∀ (line : Option (List Char)) (w : World κ),
      mucmd_run.loop hs m input line w = mucmd_run.loop hs1 m input line w := by
  induction input with
  | nil => intro line w; rfl
  | cons r rs ih =>
    intro line w
    simp only [mucmd_run.loop, iter_ignores_status hs hs1]
    cases mucmd_run.iter hs1 m line r w with
    | next l w1 => exact ih (some l) w1
    | exit l w1 => rfl
    | undefined w1 => rfl

/-- Claim C13: for every interpreter, every table, every sequence of reads and
any two handler families, which can differ only in the statuses the handlers
return, the two runs of `mucmd_run` end the same way: the same status or the
same place in the loop, in the same world, so with the same trace of prompts,
reads, allocator calls, handler invocations (same handlers, same arguments),
warnings and releases. -/
theorem run_ignores_status {κ : Type} (hs hs1 : Nat → Int → Option (List (List Char)) → Int)
    (m : mucmd κ) (input : List getline_result) (w : World κ) :
    mucmd_run hs m input w = mucmd_run hs1 m input w :=
  loop_ignores_status hs hs1 m input none (w.emit (Event.stdout banner))

/-! ### Tear-down twice -/

theorem deinit_deinit_trace {κ : Type} (m : mucmd κ) (w : World κ) (h : m.cmds ≠ 0) :
    (mucmd_deinit (mucmd_deinit m w).1 (mucmd_deinit m w).2).2.trace =
      w.trace ++ [Event.free m.cmds, Event.free m.cmds] := by
  simp [mucmd_deinit, h, MUCMD_FREE]

/-- Claim C18, at a failing input: the host of `examples/main.c` with an allocator
that resizes in place.  After `mucmd_init` and a successful `mucmd_set_commands`
the table is block `1`.  `mucmd_deinit` releases it and leaves the pointer in
`cmds`; a second `mucmd_deinit` releases block `1` again, and so does a
`mucmd_set_commands` made after the first `mucmd_deinit`. -/
theorem deinit_leaves_stale_table :
    (mucmd_deinit (main_state in_place_allocator ()).1
        (main_state in_place_allocator ()).2).1.cmds = 1 ∧
    (mucmd_deinit
        (mucmd_deinit (main_state in_place_allocator ()).1
          (main_state in_place_allocator ()).2).1
        (mucmd_deinit (main_state in_place_allocator ()).1
          (main_state in_place_allocator ()).2).2).2.trace =
      [Event.alloc 48 1, Event.free 1, Event.free 1] ∧
    (mucmd_set_commands
        (mucmd_deinit (main_state in_place_allocator ()).1
          (main_state in_place_allocator ()).2).1 cmds
        (mucmd_deinit (main_state in_place_allocator ()).1
          (main_state in_place_allocator ()).2).2).map (fun r => r.2.2.trace) =
      some [Event.alloc 48 1, Event.free 1, Event.free 1, Event.alloc 48 2] := by
  decide

/-! ### Failing inputs of the memory management of the tokenizer -/

/-- Claim C12, at failing inputs, with an allocator whose allocate succeeds and
whose every reallocate fails (returns `NULL`).  First: the line `"sum 2 3\n"`
and the table of `examples/main.c`: the last reallocation fails, yet
`mucmd_parsed_command_create` returns the record, not `NULL`, and the pass
invokes `sum_handler` instead of dropping the line.  Second: a line with 17
arguments: the reallocation to 32 entries fails when `argc` reaches 16, the
failure is not looked at, and the 17th argument is stored at index 16 of the
block of 16 entries, which is undefined behaviour. -/
theorem create_ignores_failed_realloc :
    (∃ buf w, mucmd_parsed_command_create "sum 2 3\n".toList refusing_allocator
        (World.init ()) = ⟨parse_outcome.command ⟨1, 0, 2, 2, refusing_allocator⟩, buf, w⟩ ∧
      w.trace = [Event.alloc 56 1, Event.alloc 128 2, Event.store 2 0 4, Event.store 2 1 6,
        Event.realloc 2 16 0]) ∧
    handler_calls (mucmd_run.iter zero_status (main_state refusing_allocator ()).1 none
        ⟨8, "sum 2 3\n".toList⟩ (main_state refusing_allocator ()).2).trace =
      [Event.call sum_handler 2 3 (some ["2".toList, "3".toList])] ∧
    (mucmd_parsed_command_create "c 1 2 3 4 5 6 7 8 9 10 11 12 13 14 15 16 17\n".toList
      refusing_allocator (World.init ())).outcome = parse_outcome.undefined ∧
    (mucmd_parsed_command_create "c 1 2 3 4 5 6 7 8 9 10 11 12 13 14 15 16 17\n".toList
      refusing_allocator (World.init ())).trace.drop 18 =
        [Event.realloc 2 256 0, Event.store 2 16 41] :=
  ⟨⟨_, _, rfl, by decide⟩, by decide, rfl, by decide⟩

/-- Claim C16, at a failing input: a line with a name and 16 arguments and an
allocator whose calls all succeed, the reallocate returning a new block when
the array grows past 128 bytes.  The reallocation made when `argc` reaches 16
returns block `3`, which holds the 16 arguments; the record returned still has
`argv = 2`, the released block, through which nothing can be read; the last
reallocation is asked for block `2` again, and
`mucmd_parsed_command_destroy` releases block `2` and never block `3`. -/
theorem create_drops_realloc_result :
    ∃ buf w, mucmd_parsed_command_create "c 1 2 3 4 5 6 7 8 9 10 11 12 13 14 15 16\n".toList
        growing_allocator (World.init ()) =
          ⟨parse_outcome.command ⟨1, 0, 16, 2, growing_allocator⟩, buf, w⟩ ∧
      w.trace.drop 18 = [Event.realloc 2 256 3, Event.realloc 2 128 2] ∧
      (w.heap 2).isNone = true ∧ argv_strings w buf 2 16 = none ∧
      argv_strings w buf 3 16 = some (line_tokens "1 2 3 4 5 6 7 8 9 10 11 12 13 14 15 16".toList) ∧
      (mucmd_parsed_command_destroy (some ⟨1, 0, 16, 2, growing_allocator⟩) w).trace.drop 20 =
        [Event.free 2, Event.free 1] :=
  ⟨_, _, rfl, by decide, by decide, by decide, by decide, by decide⟩

theorem create_without_token_trace {κ : Type} (a : mucmd_allocator κ) (w : World κ)
    (line : List Char) (htoks : line_tokens line = []) (junk : Nat → Int) (c1 : κ)
    (halloc : a.alloc w.ctx sizeof_parsed_command = (some junk, c1)) :
    (mucmd_parsed_command_create line a w).trace =
      w.trace ++ [Event.alloc sizeof_parsed_command (w.next + 1)] ++
        (if int_field (junk 1) > 0 then [Event.free (junk 2).toNat] else []) ++
        [Event.free (w.next + 1)] := by
  unfold parse_result.trace mucmd_parsed_command_create MUCMD_ALLOC
  rw [halloc]
  simp only [Nat.add_one_ne_zero, if_false]
  rcases strtok_cases line w.save (some 0) with ⟨-, sv1, hs⟩ | ⟨t, b, buf1, sv1, -, ht, -⟩
  · rw [hs]
    by_cases hj : int_field (junk 1) > 0 <;> simp [mucmd_parsed_command_destroy, MUCMD_FREE, hj]
  · rw [Option.getD_some, List.drop_zero, htoks] at ht
    cases ht

theorem int_field_values :
    int_field 7 = 7 ∧ int_field (-1) = -1 ∧ int_field 4294967296 = 0 ∧
      int_field 2147483648 = -2147483648 := by
  decide

/-- Claim C17, at a failing input: the line `"\n"`, which has no token, and an
allocator whose fresh blocks are not zeroed, every word holding `7`.  The
record is read before its fields `argc` and `argv` are written: the failure
path finds `argc = 7`, releases the pointer `7` found in `argv`, and then the
record: two release calls, the first for an argument array that was never
allocated.  With zeroed blocks the same line gives one release call: the
outcome depends on what the fresh record holds. -/
theorem create_reads_fresh_record :
    (mucmd_parsed_command_create "\n".toList dirty_allocator (World.init ())).trace =
      [Event.alloc 56 1, Event.free 7, Event.free 1] ∧
    (mucmd_parsed_command_create "\n".toList in_place_allocator (World.init ())).trace =
      [Event.alloc 56 1, Event.free 1] := by
  decide

/-- Claim C11, at a failing input: the table of `examples/main.c`, the line
`bogus` with 17 arguments (no entry is named `bogus`), and an allocator whose
calls all succeed, the reallocate returning a new block when the array grows
past 128 bytes (or one whose reallocate fails).  The tokenizer stores the 17th
argument through the pointer the reallocation made stale, outside any live
block: the pass runs into undefined behaviour, and has written no warning. -/
theorem unknown_command_pass_undefined :
    (∃ w, mucmd_run.iter zero_status (main_state growing_allocator ()).1 none
        ⟨48, "bogus 1 2 3 4 5 6 7 8 9 10 11 12 13 14 15 16 17\n".toList⟩
        (main_state growing_allocator ()).2 = iter_outcome.undefined w ∧
      w.trace.drop 21 = [Event.realloc 3 256 4, Event.store 3 16 45] ∧
      warnings w.trace = []) ∧
    (∃ w, mucmd_run.iter zero_status (main_state refusing_allocator ()).1 none
        ⟨48, "bogus 1 2 3 4 5 6 7 8 9 10 11 12 13 14 15 16 17\n".toList⟩
        (main_state refusing_allocator ()).2 = iter_outcome.undefined w ∧
      w.trace.drop 21 = [Event.realloc 3 256 0, Event.store 3 16 45] ∧
      warnings w.trace = []) :=
  ⟨⟨_, rfl, by decide, by decide⟩, ⟨_, rfl, by decide, by decide⟩⟩

theorem create_checks_allocate :
    (mucmd_parsed_command_create "sum 2 3\n".toList one_shot_allocator
      (World.init 0)).outcome = parse_outcome.null ∧
    (mucmd_parsed_command_create "sum 2 3\n".toList one_shot_allocator (World.init 0)).trace =
      [Event.alloc 56 1, Event.alloc 128 0, Event.free 1] ∧
    (mucmd_parsed_command_create "sum 2 3\n".toList one_shot_allocator
      (World.init 1)).outcome = parse_outcome.null ∧
    (mucmd_parsed_command_create "sum 2 3\n".toList one_shot_allocator (World.init 1)).trace =
      [Event.alloc 56 0] :=
  ⟨rfl, by decide, rfl, by decide⟩

theorem short_rejected_lines_warn :
    (∃ buf w, mucmd_run.iter zero_status (main_state growing_allocator ()).1 none
        ⟨6, "bogus\n".toList⟩ (main_state growing_allocator ()).2 = iter_outcome.next buf w ∧
      handler_calls w.trace = [] ∧
      warnings w.trace = [Event.stderr "[mucmd:WARN] cmd unknown\n".toList]) ∧
    (∃ buf w, mucmd_run.iter zero_status (main_state growing_allocator ()).1 none
        ⟨3, " \n\n".toList⟩ (main_state growing_allocator ()).2 = iter_outcome.next buf w ∧
      handler_calls w.trace = [] ∧
      warnings w.trace = [Event.stderr "[mucmd:WARN] cmd parsing failed\n".toList]) :=
  ⟨⟨_, _, rfl, by decide, by decide⟩, ⟨_, _, rfl, by decide, by decide⟩⟩

/-! ### Commands without arguments -/

theorem realloc_trace {κ : Type} (a : mucmd_allocator κ) (w : World κ) (ptr size : Nat) :
    ∃ ret, (MUCMD_REALLOC a w ptr size).2.trace = w.trace ++ [Event.realloc ptr size ret] := by
  unfold MUCMD_REALLOC
  obtain ⟨r, c⟩ := a.realloc w.ctx ptr size
  cases r <;> exact ⟨_, rfl⟩

theorem one_token_trace {κ : Type} (a : mucmd_allocator κ) (w : World κ) (line : List Char)
    (name : List Char) (htoks : line_tokens line = [name])
    (halloc : ∀ c n, (a.alloc c n).1 ≠ none) :
    ∃ c buf w1 ret, mucmd_parsed_command_create line a w = ⟨parse_outcome.command c, buf, w1⟩ ∧
      c.argc = 0 ∧ c.self = w.next + 1 ∧ c.argv = w.next + 2 ∧
      w1.trace = w.trace ++ [Event.alloc sizeof_parsed_command (w.next + 1),
        Event.alloc (16 * sizeof_char_ptr) (w.next + 2), Event.realloc (w.next + 2) 0 ret] ∧
      (mucmd_parsed_command_destroy (some c) w1).trace = w1.trace ++ [Event.free (w.next + 1)] := by
  unfold mucmd_parsed_command_create
  obtain ⟨junk, w1, h1, -, hnext1, hsave1, htrace1⟩ :=
    alloc_ok a w sizeof_parsed_command (halloc _ _)
  rw [h1]
  simp only [Nat.add_one_ne_zero, if_false]
  rcases strtok_cases line w1.save (some 0) with ⟨ht, -⟩ |
    ⟨t, b, buf1, sv1, hs, htok, -⟩
  · rw [Option.getD_some, List.drop_zero, htoks] at ht
    cases ht
  · rw [Option.getD_some, List.drop_zero, htoks] at htok
    injection htok with _ hrest
    rw [hs]
    simp only
    obtain ⟨junk2, w2, h2, -, -, hsave2, htrace2⟩ :=
      alloc_ok a { w1 with save := sv1 } (16 * sizeof_char_ptr) (halloc _ _)
    rw [h2]
    simp only [Nat.add_one_ne_zero, if_false, hnext1] at htrace2 ⊢
    unfold mucmd_parsed_command_create.loop
    rcases strtok_cases buf1 w2.save none with ⟨-, sv2, hs2⟩ | ⟨t2, b2, buf2, sv2, -, htok2, -⟩
    · rw [hs2]
      simp only [Int.toNat_zero, Nat.zero_mul]
      obtain ⟨ret, hret⟩ := realloc_trace a { w2 with save := sv2 } (w.next + 1 + 1) 0
      refine ⟨_, _, _, ret, rfl, rfl, rfl, rfl, ?_, ?_⟩
      · rw [hret]
        simp only [htrace2, htrace1, List.append_assoc, List.cons_append, List.nil_append]
      · simp [mucmd_parsed_command_destroy, MUCMD_FREE]
    · rw [Option.getD_none, hsave2] at htok2
      simp only at htok2
      rw [← hrest] at htok2
      cases htok2

/-- Claim C14 as stated fails: the line `"hello\n"` has exactly one token, and
`mucmd_parsed_command_create` asks the allocator to reallocate the argument
array, block `2`, to size zero. -/
theorem zero_size_realloc_is_made :
    line_tokens "hello\n".toList = ["hello".toList] ∧
    Event.realloc 2 0 2 ∈
      (mucmd_parsed_command_create "hello\n".toList in_place_allocator (World.init ())).trace := by
  decide

/-- Claim C14, amended: on every line with exactly one token, with an allocator
whose allocate succeeds, `mucmd_parsed_command_create` returns a record with
`argc = 0` after exactly three allocator calls: the allocation of the record,
the allocation of the argument array, and a reallocation of the argument array
to size zero (the request is for `argc` entries also when `argc` is zero).
What is skipped when `argc` is zero is the release of the argument array:
`mucmd_parsed_command_destroy` then makes one release call, for the record. -/
theorem one_token_reallocates_to_zero {κ : Type} (a : mucmd_allocator κ) (w : World κ)
    (line : List Char) (name : List Char) (htoks : line_tokens line = [name])
    (halloc : ∀ c n, (a.alloc c n).1 ≠ none) :
    ∃ c buf w1 ret, mucmd_parsed_command_create line a w = ⟨parse_outcome.command c, buf, w1⟩ ∧
      c.argc = 0 ∧ c.self = w.next + 1 ∧ c.argv = w.next + 2 ∧
      w1.trace = w.trace ++ [Event.alloc sizeof_parsed_command (w.next + 1),
        Event.alloc (16 * sizeof_char_ptr) (w.next + 2), Event.realloc (w.next + 2) 0 ret] ∧
      (mucmd_parsed_command_destroy (some c) w1).trace = w1.trace ++ [Event.free (w.next + 1)] :=
  one_token_trace a w line name htoks halloc

/-! ### The requests for the argument array -/

theorem store_arg_trace {κ : Type} (w : World κ) (ptr idx tok : Nat) :
    (store_arg w ptr idx tok).2.trace = w.trace ++ [Event.store ptr idx tok] := by
  unfold store_arg
  cases w.heap ptr with
  | none => rfl
  | some b =>
    obtain ⟨size, content⟩ := b
    simp only
    split <;> rfl

theorem loop_discipline {κ : Type} (fuel : Nat) :
    ∀ (input : List Char) (w : World κ) (command : mucmd_parsed_command κ) (capacity n : Nat),
      command.argc = (n : Int) → n < capacity →
      w.save ≤ input.length → input.length < fuel + w.save →
      ∃ t, (mucmd_parsed_command_create.loop fuel input w command capacity).world.trace =
          w.trace ++ t ∧
        array_discipline command.argv capacity n t = true ∧
        ∀ c, (mucmd_parsed_command_create.loop fuel input w command capacity).outcome =
            parse_outcome.command c →
          c.argc = ((n + (line_tokens (input.drop w.save)).length : Nat) : Int) ∧
          c.argv = command.argv ∧ c.self = command.self ∧
          ∃ t0 ret, t = t0 ++ [Event.realloc command.argv
            ((n + (line_tokens (input.drop w.save)).length) * sizeof_char_ptr) ret] := by
  induction fuel with
  | zero => intro input w command capacity n _ _ h1 h2; omega
  | succ fuel ih =>
    intro input w command capacity n hargc hcap hsv hfuel
    unfold mucmd_parsed_command_create.loop
    have htoNat : command.argc.toNat = n := by rw [hargc]; exact Int.toNat_natCast n
    rcases strtok_cases input w.save none with ⟨htok, sv1, hs⟩ |
      ⟨t, b, buf1, sv1, hs, htok, hne, hb, hbt, hle, hlen, -, -⟩
    · rw [Option.getD_none] at htok
      rw [hs, htok, htoNat]
      simp only [List.length_nil, Nat.add_zero]
      obtain ⟨ret, hret⟩ := realloc_trace command.allocator { w with save := sv1 }
        command.argv (n * sizeof_char_ptr)
      refine ⟨[Event.realloc command.argv (n * sizeof_char_ptr) ret], hret, ?_, ?_⟩
      · simp [array_discipline, Nat.ne_of_lt hcap]
      · intro c hc
        injection hc with hc
        subst hc
        exact ⟨hargc, rfl, rfl, [], ret, rfl⟩
    · rw [Option.getD_none] at htok hb
      rw [hs, htoNat]
      simp only
      have ht : 0 < t.length := List.length_pos.mpr hne
      have hst := store_arg_trace { w with save := sv1 } command.argv n b
      have hss := store_arg_save { w with save := sv1 } command.argv n b
      generalize store_arg { w with save := sv1 } command.argv n b = r at hst hss ⊢
      obtain ⟨ok, w1⟩ := r
      simp only at hst hss
      cases ok with
      | false =>
        refine ⟨[Event.store command.argv n b], hst, ?_, ?_⟩
        · simp [array_discipline, hcap]
        · intro c hc; cases hc
      | true =>
        simp only
        have hcount : n + 1 + (line_tokens (buf1.drop sv1)).length =
            n + (line_tokens (input.drop w.save)).length := by
          rw [htok]; simp only [List.length_cons]; omega
        split
        · rename_i heq
          have hcapeq : n + 1 = capacity := by rw [hargc] at heq; omega
          obtain ⟨ret, hret⟩ := realloc_trace command.allocator w1 command.argv
            ((capacity <<< 1) * sizeof_char_ptr)
          have hsave2 := realloc_save command.allocator w1 command.argv
            ((capacity <<< 1) * sizeof_char_ptr)
          generalize (MUCMD_REALLOC command.allocator w1 command.argv
            ((capacity <<< 1) * sizeof_char_ptr)).2 = w2 at hret hsave2 ⊢
          obtain ⟨t2, htr, hdisc, hout⟩ := ih buf1 w2 { command with argc := command.argc + 1 }
            (capacity <<< 1) (n + 1) (by simp only [hargc]; omega)
            (by rw [Nat.shiftLeft_eq]; omega)
            (by rw [hsave2, hss, hlen]; exact hle) (by rw [hsave2, hss, hlen]; omega)
          rw [hsave2, hss, hcount] at hout
          refine ⟨Event.store command.argv n b ::
            Event.realloc command.argv ((capacity <<< 1) * sizeof_char_ptr) ret :: t2, ?_, ?_, ?_⟩
          · rw [htr, hret, hst]
            simp only [List.append_assoc, List.cons_append, List.nil_append]
          · have h2 : capacity <<< 1 = 2 * capacity := by rw [Nat.shiftLeft_eq]; omega
            rw [h2] at hdisc ⊢
            simp only [array_discipline, hcapeq, if_true, beq_self_eq_true, Bool.true_and,
              Bool.and_true, decide_eq_true_eq]
            subst hcapeq
            simpa using hdisc
          · intro c hc
            obtain ⟨h1, h2, h3, t0, ret0, h4⟩ := hout c hc
            exact ⟨h1, h2, h3, Event.store command.argv n b ::
              Event.realloc command.argv ((capacity <<< 1) * sizeof_char_ptr) ret :: t0, ret0,
              by rw [h4]; rfl⟩
        · rename_i hneq
          have hcapne : n + 1 ≠ capacity := by
            intro h; apply hneq; rw [hargc]; omega
          obtain ⟨t2, htr, hdisc, hout⟩ := ih buf1 w1 { command with argc := command.argc + 1 }
            capacity (n + 1) (by simp only [hargc]; omega) (by omega)
            (by rw [hss, hlen]; exact hle) (by rw [hss, hlen]; omega)
          rw [hss, hcount] at hout
          refine ⟨Event.store command.argv n b :: t2, ?_, ?_, ?_⟩
          · rw [htr, hst]
            simp only [List.append_assoc, List.cons_append, List.nil_append]
          · simp only [array_discipline, beq_self_eq_true, Bool.true_and, hcap, decide_True]
            exact hdisc
          · intro c hc
            obtain ⟨h1, h2, h3, t0, ret0, h4⟩ := hout c hc
            exact ⟨h1, h2, h3, Event.store command.argv n b :: t0, ret0, by rw [h4]; rfl⟩

theorem loop_short {κ : Type} (fuel : Nat) :
    ∀ (input : List Char) (w : World κ) (command : mucmd_parsed_command κ) (capacity n : Nat),
      command.argc = (n : Int) →
      (line_tokens (input.drop w.save) = [] ∨
        ∃ size content, w.heap command.argv = some ⟨size, content⟩ ∧
          capacity * sizeof_char_ptr ≤ size ∧
          n + (line_tokens (input.drop w.save)).length ≤ capacity) →
      w.save ≤ input.length → input.length < fuel + w.save →
      ∃ c, (mucmd_parsed_command_create.loop fuel input w command capacity).outcome =
        parse_outcome.command c := by
  induction fuel with
  | zero => intro input w command capacity n _ _ h1 h2; omega
  | succ fuel ih =>
    intro input w command capacity n hargc hroom hsv hfuel
    unfold mucmd_parsed_command_create.loop
    have htoNat : command.argc.toNat = n := by rw [hargc]; exact Int.toNat_natCast n
    rcases strtok_cases input w.save none with ⟨htok, sv1, hs⟩ |
      ⟨t, b, buf1, sv1, hs, htok, hne, hb, hbt, hle, hlen, -, -⟩
    · rw [hs]
      exact ⟨command, rfl⟩
    · rw [Option.getD_none] at htok hb
      rw [hs, htoNat]
      simp only
      have ht : 0 < t.length := List.length_pos.mpr hne
      rcases hroom with hnil | ⟨size, content, hheap, hsize, hcount⟩
      · rw [htok] at hnil; cases hnil
      · rw [htok, List.length_cons] at hcount
        obtain ⟨w1, hst, hsave1, hheap1⟩ := store_arg_ok { w with save := sv1 } command.argv n b
          size content hheap (by
            have : (n + 1) * sizeof_char_ptr ≤ capacity * sizeof_char_ptr :=
              Nat.mul_le_mul_right _ (by omega)
            omega)
        rw [hst]
        simp only
        split
        · rename_i heq
          have hcapeq : n + 1 = capacity := by rw [hargc] at heq; omega
          have hnil : line_tokens (buf1.drop sv1) = [] :=
            List.length_eq_zero.mp (by omega)
          have hsave2 := realloc_save command.allocator w1 command.argv
            ((capacity <<< 1) * sizeof_char_ptr)
          generalize (MUCMD_REALLOC command.allocator w1 command.argv
            ((capacity <<< 1) * sizeof_char_ptr)).2 = w2 at hsave2 ⊢
          have hs2 : w2.save = sv1 := by rw [hsave2, hsave1]
          exact ih buf1 w2 { command with argc := command.argc + 1 } (capacity <<< 1) (n + 1)
            (by simp only [hargc]; omega) (Or.inl (by rw [hs2]; exact hnil))
            (by rw [hs2, hlen]; exact hle) (by rw [hs2, hlen]; omega)
        · have hs1 : w1.save = sv1 := hsave1
          exact ih buf1 w1 { command with argc := command.argc + 1 } capacity (n + 1)
            (by simp only [hargc]; omega)
            (Or.inr ⟨size, _, by rw [hheap1]; exact Function.update_same _ _ _, hsize,
              by rw [hs1]; omega⟩)
            (by rw [hs1, hlen]; exact hle) (by rw [hs1, hlen]; omega)

/-- The requests `mucmd_parsed_command_create` makes for the argument array, for
every line with a name and every allocator whose allocate calls succeed: the
array is first requested with 16 entries, every store is at the current `argc`,
below the capacity last requested, a request for twice the capacity is made
exactly when `argc` has reached it, and a record that is returned has `argc`
equal to the number of arguments and a last request for exactly that many
entries.  The record is returned for every line of at most 16 arguments, and for
every line when reallocate resizes in place. -/
theorem create_discipline {κ : Type} (a : mucmd_allocator κ) (w : World κ)
    (line name : List Char) (args : List (List Char))
    (htoks : line_tokens line = name :: args) (halloc : ∀ c n, (a.alloc c n).1 ≠ none) :
    ∃ t, (mucmd_parsed_command_create line a w).world.trace =
        w.trace ++ [Event.alloc sizeof_parsed_command (w.next + 1),
          Event.alloc (16 * sizeof_char_ptr) (w.next + 2)] ++ t ∧
      array_discipline (w.next + 2) 16 0 t = true ∧
      (∀ c, (mucmd_parsed_command_create line a w).outcome = parse_outcome.command c →
        c.argc = (args.length : Int) ∧ c.argv = w.next + 2 ∧
        ∃ t0 ret, t = t0 ++
          [Event.realloc (w.next + 2) (args.length * sizeof_char_ptr) ret]) ∧
      (args.length ≤ 16 → ∃ c, (mucmd_parsed_command_create line a w).outcome =
        parse_outcome.command c) ∧
      ((∀ c p n, (a.realloc c p n).1 = realloc_reply.same) →
        ∃ c, (mucmd_parsed_command_create line a w).outcome = parse_outcome.command c) := by
  have hplace : (∀ c p n, (a.realloc c p n).1 = realloc_reply.same) →
      ∃ c, (mucmd_parsed_command_create line a w).outcome = parse_outcome.command c := by
    intro hsame
    obtain ⟨c, buf, w1, h, -⟩ := tokenizer_in_place a hsame halloc line w name args htoks
    exact ⟨c, by rw [h]⟩
  revert hplace
  generalize hP : ((∀ c p n, (a.realloc c p n).1 = realloc_reply.same) →
      ∃ c, (mucmd_parsed_command_create line a w).outcome = parse_outcome.command c) = P
  intro hplace
  unfold mucmd_parsed_command_create
  obtain ⟨junk, w1, h1, hheap1, hnext1, -, htr1⟩ :=
    alloc_ok a w sizeof_parsed_command (halloc _ _)
  rw [h1]
  simp only [Nat.add_one_ne_zero, if_false]
  rcases strtok_cases line w1.save (some 0) with ⟨ht, -⟩ |
    ⟨t, b, buf1, sv1, hs, htok, hne, hb, hbt, hle, hlen, -, -⟩
  · rw [Option.getD_some, List.drop_zero, htoks] at ht
    cases ht
  · rw [Option.getD_some, List.drop_zero, htoks] at htok
    injection htok with hname hargs
    rw [hs]
    simp only
    obtain ⟨junk2, w2, h2, hheap2, -, hsave2, htr2⟩ :=
      alloc_ok a { w1 with save := sv1 } (16 * sizeof_char_ptr) (halloc _ _)
    have hq : ({ w1 with save := sv1 } : World κ).next + 1 = w.next + 2 := by
      show w1.next + 1 = w.next + 2
      rw [hnext1]
    rw [hq] at h2 hheap2 htr2
    rw [h2]
    simp only [Nat.add_one_ne_zero, if_false]
    have hs2 : w2.save = sv1 := hsave2
    obtain ⟨t2, htr, hdisc, hout⟩ := loop_discipline (buf1.length + 1) buf1 w2
      ⟨w.next + 1, b, 0, w.next + 2, a⟩ 16 0 rfl (by decide) (by rw [hs2, hlen]; exact hle)
      (by rw [hs2]; omega)
    rw [hs2, ← hargs, Nat.zero_add] at hout
    refine ⟨t2, ?_, hdisc, ?_, ?_, hplace⟩
    · rw [htr, htr2]
      show (w1.trace ++ _) ++ t2 = _
      rw [htr1]
      simp only [List.append_assoc, List.cons_append, List.nil_append]
    · intro c hc
      obtain ⟨k1, k2, -, k4⟩ := hout c hc
      exact ⟨k1, k2, k4⟩
    · intro hshort
      exact loop_short (buf1.length + 1) buf1 w2 ⟨w.next + 1, b, 0, w.next + 2, a⟩ 16 0 rfl
        (Or.inr ⟨16 * sizeof_char_ptr, Content.raw, by
          rw [hheap2]; exact Function.update_same _ _ _, Nat.le_refl _, by
          rw [hs2, ← hargs, Nat.zero_add]; exact hshort⟩)
        (by rw [hs2, hlen]; exact hle) (by rw [hs2]; omega)

theorem directive_exact (line : List Char) :
    (mucmd_exit line = true ↔ c_str line = "exit\n".toList) ∧
    (mucmd_info line = true ↔ c_str line = "info\n".toList) := by
  constructor
  · unfold mucmd_exit
    rw [beq_iff_eq, strcmp_eq_zero]
    exact Iff.rfl
  · unfold mucmd_info
    rw [beq_iff_eq, strcmp_eq_zero]
    exact Iff.rfl

theorem iter_not_exit {κ : Type} (hs : Nat → Int → Option (List (List Char)) → Int)
    (m : mucmd κ) (line : Option (List Char)) (r : getline_result) (w : World κ)
    (h : mucmd_exit r.line = false) (buf : List Char) (w1 : World κ) :
    mucmd_run.iter hs m line r w ≠ iter_outcome.exit buf w1 := by
  unfold mucmd_run.iter
  simp only [h, Bool.false_eq_true, if_false]
  split
  · split <;> exact fun hc => by cases hc
  · split
    · exact fun hc => by cases hc
    · split
      · exact fun hc => by cases hc
      · exact fun hc => by cases hc
      · split <;> exact fun hc => by cases hc
    · exact fun hc => by cases hc

theorem near_exit_lines_dispatch :
    (mucmd_exit "exit \n".toList = false ∧ mucmd_exit " exit\n".toList = false ∧
      mucmd_exit "exit now\n".toList = false ∧ mucmd_exit "exit".toList = false) ∧
    (∃ buf w, mucmd_run.iter zero_status (exit_state growing_allocator ()).1 none
        ⟨6, "exit \n".toList⟩ (exit_state growing_allocator ()).2 = iter_outcome.next buf w ∧
      handler_calls w.trace = [Event.call exit_handler 0 3 (some [])]) ∧
    (∃ buf w, mucmd_run.iter zero_status (exit_state growing_allocator ()).1 none
        ⟨6, " exit\n".toList⟩ (exit_state growing_allocator ()).2 = iter_outcome.next buf w ∧
      handler_calls w.trace = [Event.call exit_handler 0 3 (some [])]) ∧
    (∃ buf w, mucmd_run.iter zero_status (exit_state growing_allocator ()).1 none
        ⟨9, "exit now\n".toList⟩ (exit_state growing_allocator ()).2 =
          iter_outcome.next buf w ∧
      handler_calls w.trace = [Event.call exit_handler 1 3 (some ["now".toList])]) ∧
    (∃ buf w, mucmd_run.iter zero_status (exit_state growing_allocator ()).1 none
        ⟨4, "exit".toList⟩ (exit_state growing_allocator ()).2 = iter_outcome.next buf w ∧
      handler_calls w.trace = [Event.call exit_handler 0 3 (some [])]) :=
  ⟨by decide, ⟨_, _, rfl, by decide⟩, ⟨_, _, rfl, by decide⟩, ⟨_, _, rfl, by decide⟩,
    ⟨_, _, rfl, by decide⟩⟩

/-- Claim C19, at a failing input: a host that registered a command named
`exit`, the line `exit` followed by 17 arguments, and an allocator whose calls
all succeed, the reallocate returning a new block when the array grows past 128
bytes.  The line is not the directive and is handed to the tokenizer, which
stores the 17th argument through the pointer the reallocation made stale: the
pass runs into undefined behaviour before the table is searched, and the
handler registered as `exit` has not been invoked. -/
theorem long_exit_line_undefined :
    mucmd_exit "exit 1 2 3 4 5 6 7 8 9 10 11 12 13 14 15 16 17\n".toList = false ∧
    mucmd_info "exit 1 2 3 4 5 6 7 8 9 10 11 12 13 14 15 16 17\n".toList = false ∧
    ∃ w, mucmd_run.iter zero_status (exit_state growing_allocator ()).1 none
        ⟨47, "exit 1 2 3 4 5 6 7 8 9 10 11 12 13 14 15 16 17\n".toList⟩
        (exit_state growing_allocator ()).2 = iter_outcome.undefined w ∧
      w.trace.drop 21 = [Event.realloc 3 256 4, Event.store 3 16 44] ∧
      handler_calls w.trace = [] :=
  ⟨by decide, by decide, _, rfl, by decide, by decide⟩

/-! ### Instances -/

theorem main_registered :
    registered (main_state in_place_allocator ()).2 (main_state in_place_allocator ()).1
      (cmds.take 2) :=
  ⟨rfl, by decide, rfl⟩

theorem blank_line_gives_no_command_witness :
    (mucmd_parsed_command_create " \n".toList in_place_allocator (World.init ())).outcome =
        parse_outcome.null ∧
    line_tokens " \n".toList = [] :=
  ⟨(blank_line_gives_no_command in_place_allocator (World.init ()) " \n".toList).1 (by decide),
   (blank_line_gives_no_command in_place_allocator (World.init ()) " \n".toList).2
     (fun _ _ => Option.some_ne_none _) rfl⟩

theorem lookup_first_exact_match_witness :
    mucmd_run.lookup (main_state in_place_allocator ()).1 (main_state in_place_allocator ()).2
        "sum".toList (main_state in_place_allocator ()).1.cmds_number 0 =
      some (some (1, ⟨"sum".toList, sum_handler, some "the sum of two numbers".toList⟩)) ∧
    mucmd_run.lookup (main_state in_place_allocator ()).1 (main_state in_place_allocator ()).2
        "Sum".toList (main_state in_place_allocator ()).1.cmds_number 0 = some none :=
  ⟨(lookup_first_exact_match _ _ _ main_registered "sum".toList).1 1 _ rfl rfl (by
      intro j d hj hd
      obtain rfl : j = 0 := by omega
      have hd2 : some (⟨"hello".toList, hello_handler, some "prints greetings".toList⟩ :
          mucmd_command) = some d := hd
      cases hd2
      decide),
   (lookup_first_exact_match _ _ _ main_registered "Sum".toList).2 (by decide)⟩

theorem set_commands_copies_table_witness :
    ∃ m1 w1, mucmd_set_commands (mucmd_init in_place_allocator) cmds (World.init ()) =
        some (0, m1, w1) ∧
      m1.cmds ≠ 0 ∧ m1.cmds_number = 2 ∧
      w1.heap m1.cmds = some ⟨2 * sizeof_command, Content.table (cmds.take 2)⟩ :=
  set_commands_copies_table (mucmd_init in_place_allocator) (World.init ()) (cmds.take 2)
    ⟨[], 0, none⟩ [] (by decide) rfl (fun _ _ => Option.some_ne_none _)

theorem set_commands_failure_empties_witness :
    ∃ res m1 w1, mucmd_set_commands (main_state one_shot_allocator 0).1 cmds
        (main_state one_shot_allocator 0).2 = some (res, m1, w1) ∧
      res ≠ 0 ∧ m1.cmds_number = 0 ∧ m1.cmds = 0 :=
  set_commands_failure_empties one_shot_allocator (World.init 0) _ _
    (reachable.set_commands reachable.init
      (show mucmd_set_commands (mucmd_init one_shot_allocator) cmds (World.init 0) =
        some (0, (main_state one_shot_allocator 0).1, (main_state one_shot_allocator 0).2)
        from rfl))
    cmds (by decide) (fun _ _ => rfl)

theorem table_blocks_released_once_witness :
    ∃ w reqs, session in_place_allocator [cmds, cmds] (World.init ()) = some w ∧
      reqs.length = 2 ∧
      w.trace = (World.init ()).trace ++ table_traffic reqs ∧
      released (table_traffic reqs) = obtained (table_traffic reqs) ∧
      (obtained (table_traffic reqs)).Nodup :=
  table_blocks_released_once in_place_allocator [cmds, cmds] (World.init ()) (by decide)

theorem exit_directive_stops_witness :
    mucmd_run zero_status (mucmd_init in_place_allocator)
        ([⟨5, "info\n".toList⟩] ++ ⟨5, "exit\n".toList⟩ :: [⟨4, "sum\n".toList⟩])
        (World.init ()) =
      run_outcome.returned 0
        ⟨(), 0, fun _ => none, 0,
          [Event.stdout banner, Event.stdout MUCMD_PROMPT, Event.getline 5,
            Event.stdout "you have no registered commands\n".toList] ++
          pass_start (some "info\n".toList) ⟨5, "exit\n".toList⟩ ++ [Event.free_line]⟩ :=
  exit_directive_stops zero_status (mucmd_init in_place_allocator) [⟨5, "info\n".toList⟩]
    [⟨4, "sum\n".toList⟩] ⟨5, "exit\n".toList⟩ (World.init ())
    ⟨(), 0, fun _ => none, 0,
      [Event.stdout banner, Event.stdout MUCMD_PROMPT, Event.getline 5,
        Event.stdout "you have no registered commands\n".toList]⟩
    (some "info\n".toList) rfl rfl

theorem info_directive_lists_witness :
    mucmd_run zero_status (main_state in_place_allocator ()).1 ([] ++ [⟨5, "info\n".toList⟩])
        (main_state in_place_allocator ()).2 =
      run_outcome.reading (some "info\n".toList)
        { (main_state in_place_allocator ()).2.emit (Event.stdout banner) with
          trace := ((main_state in_place_allocator ()).2.emit (Event.stdout banner)).trace ++
            pass_start none ⟨5, "info\n".toList⟩ ++
            [Event.stdout "hello\tprints greetings\n".toList,
             Event.stdout "sum\tthe sum of two numbers\n".toList] } ∧
    mucmd_run zero_status (mucmd_init in_place_allocator) ([] ++ [⟨5, "info\n".toList⟩])
        (World.init ()) =
      run_outcome.reading (some "info\n".toList)
        { (World.init ()).emit (Event.stdout banner) with
          trace := ((World.init ()).emit (Event.stdout banner)).trace ++
            pass_start none ⟨5, "info\n".toList⟩ ++
            [Event.stdout "you have no registered commands\n".toList] } ∧
    (failed_state.1.cmds = 0 ∧ failed_state.1.cmds_number = 0 ∧
      failed_state.2.trace = [Event.alloc 48 0]) ∧
    mucmd_run zero_status failed_state.1 ([] ++ [⟨5, "info\n".toList⟩]) failed_state.2 =
      run_outcome.reading (some "info\n".toList)
        { failed_state.2.emit (Event.stdout banner) with
          trace := (failed_state.2.emit (Event.stdout banner)).trace ++
            pass_start none ⟨5, "info\n".toList⟩ ++
            [Event.stdout "you have no registered commands\n".toList] } :=
  ⟨info_directive_lists zero_status (main_state in_place_allocator ()).1 (cmds.take 2) []
      ⟨5, "info\n".toList⟩ (main_state in_place_allocator ()).2
      ((main_state in_place_allocator ()).2.emit (Event.stdout banner)) none rfl
      (Or.inr main_registered) rfl,
    info_directive_lists zero_status (mucmd_init in_place_allocator) [] []
      ⟨5, "info\n".toList⟩ (World.init ())
      ((World.init ()).emit (Event.stdout banner)) none rfl (Or.inl ⟨rfl, rfl⟩) rfl,
    by decide,
    info_directive_lists zero_status failed_state.1 [] []
      ⟨5, "info\n".toList⟩ failed_state.2
      (failed_state.2.emit (Event.stdout banner)) none rfl (Or.inl ⟨by decide, rfl⟩) rfl⟩

theorem tokenizer_in_place_witness :
    ∃ c buf w1, mucmd_parsed_command_create "sum 2 3\n".toList in_place_allocator
        (World.init ()) = ⟨parse_outcome.command c, buf, w1⟩ ∧
      c_str_at buf c.name = "sum".toList ∧ c.argc = 2 ∧
      argv_strings w1 buf c.argv c.argc = some ["2".toList, "3".toList] ∧
      c.allocator = in_place_allocator ∧
      (∀ x, x ≤ (World.init ()).next → w1.heap x = (World.init ()).heap x) :=
  tokenizer_in_place in_place_allocator (fun _ _ _ => rfl) (fun _ _ => Option.some_ne_none _)
    "sum 2 3\n".toList (World.init ()) "sum".toList ["2".toList, "3".toList] (by decide)

theorem dispatch_in_place_witness :
    ∃ buf w1 argv, mucmd_run.iter zero_status (main_state in_place_allocator ()).1 none
        ⟨8, "sum 2 3\n".toList⟩ (main_state in_place_allocator ()).2 =
          iter_outcome.next buf w1 ∧
      handler_calls w1.trace =
        handler_calls (main_state in_place_allocator ()).2.trace ++
          [Event.call sum_handler 2 argv (some ["2".toList, "3".toList])] :=
  dispatch_in_place zero_status in_place_allocator (fun _ _ _ => rfl)
    (fun _ _ => Option.some_ne_none _) (main_state in_place_allocator ()).1 rfl
    (main_state in_place_allocator ()).2 (cmds.take 2) main_registered (by decide) none
    ⟨8, "sum 2 3\n".toList⟩ "sum".toList ["2".toList, "3".toList] (by decide) (by decide)
    (by decide) 1 ⟨"sum".toList, sum_handler, some "the sum of two numbers".toList⟩ rfl
    (by decide) (by
      intro j d hj hd
      obtain rfl : j = 0 := by omega
      have hd2 : some (⟨"hello".toList, hello_handler, some "prints greetings".toList⟩ :
          mucmd_command) = some d := hd
      cases hd2
      decide)

theorem one_token_reallocates_to_zero_witness :
    line_tokens "hello\n".toList = ["hello".toList] ∧
    ∃ c buf w1 ret,
      mucmd_parsed_command_create "hello\n".toList in_place_allocator (World.init ()) =
        ⟨parse_outcome.command c, buf, w1⟩ ∧
      c.argc = 0 ∧ c.self = (World.init ()).next + 1 ∧ c.argv = (World.init ()).next + 2 ∧
      w1.trace = (World.init ()).trace ++
        [Event.alloc sizeof_parsed_command ((World.init ()).next + 1),
          Event.alloc (16 * sizeof_char_ptr) ((World.init ()).next + 2),
          Event.realloc ((World.init ()).next + 2) 0 ret] ∧
      (mucmd_parsed_command_destroy (some c) w1).trace =
        w1.trace ++ [Event.free ((World.init ()).next + 1)] :=
  ⟨by decide, one_token_reallocates_to_zero in_place_allocator (World.init ())
    "hello\n".toList "hello".toList (by decide) (fun _ _ => Option.some_ne_none _)⟩

end Mucmd
